import Mathlib

/-!
# listmatch: matching engine, hash codec, upload store and client loops

A shallow embedding of `listmatch-server/server.go` and of the key
normalisation (`nextLine`) and mask reading (`matchMain`) of `listmatch.go`.
Hash values (`uint64`) and bytes are natural numbers; a `[]uint64` is a
`List Nat`.  Every `[]uint64` of the program is produced by `readUint64s`,
whose result is the nil slice exactly when it is empty, so `[]` stands for the
nil slice.
-/

namespace ListMatch

/-! ## Limits -/

/-- Go: `const maxHashes = 1e8`. -/
def maxHashes : Nat := 100000000

/-- Go: `const maxTotalHashes int = 1e8`. -/
def maxTotalHashes : Nat := 100000000

/-- Go: `const maxMatchesPerUpload int = 1e8`. -/
def maxMatchesPerUpload : Nat := 100000000

/-! ## Matching engine -/

/-- Loop of Go's `sort.Search`: `for i < j { h := int(uint(i+j) >> 1);
if !f(h) { i = h + 1 } else { j = h } }; return i`.  The first argument bounds
the number of iterations; `j - i` iterations always suffice
(`searchLoop_fuel`). -/
def searchLoop (f : Nat → Bool) : Nat → Nat → Nat → Nat
  | 0, i, _ => i
  | fuel + 1, i, j =>
    if i < j then
      let h := (i + j) / 2
      if !f h then searchLoop f fuel (h + 1) j else searchLoop f fuel i h
    else i

/-- Go's `sort.Search(n, f)`: binary search for the smallest index in `[0, n)`
at which `f` holds (for monotone `f`), `n` when there is none. -/
def search (n : Nat) (f : Nat → Bool) : Nat :=
  searchLoop f n 0 n

/-- Go `findHash`: finds a hash (needle) in a sorted list (haystack). -/
def findHash (needle : Nat) (haystack : List Nat) : Bool :=
  let foundAt := search haystack.length (fun i => decide (haystack.getD i 0 ≥ needle))
  if foundAt = haystack.length ∨ haystack.getD foundAt 0 ≠ needle then false else true

/-- Inner loop of `findHashes`:
`for j := 7; i < len(needles) && j >= 0; i, j = i+1, j-1`, with the first
argument `j + 1`.  Returns the final `i` and `mask`. -/
def maskLoop (needles haystack : List Nat) : Nat → Nat → Nat → Nat × Nat
  | 0, i, mask => (i, mask)
  | j + 1, i, mask =>
    if h : i < needles.length then
      maskLoop needles haystack j (i + 1)
        (if findHash needles[i] haystack then mask ||| (1 <<< j) else mask)
    else (i, mask)

/-- Outer loop of `findHashes`: `for i < len(needles) { var mask byte; ...;
out = append(out, mask) }`.  The first argument bounds the number of
iterations; `len(needles) - i` always suffice, as `i` grows in each one. -/
def outLoop (needles haystack : List Nat) : Nat → Nat → List Nat → List Nat
  | 0, _, out => out
  | fuel + 1, i, out =>
    if i < needles.length then
      let r := maskLoop needles haystack 8 i 0
      outLoop needles haystack fuel r.1 (out ++ [r.2])
    else out

/-- Go `findHashes`: makes a mask saying which values in needles have a match
in haystack. -/
def findHashes (needles haystack : List Nat) : List Nat :=
  outLoop needles haystack needles.length 0 []

/-- Bit `i` of a mask: byte `i / 8`, bit position `7 - i % 8`. -/
def maskBit (out : List Nat) (i : Nat) : Bool :=
  (out.getD (i / 8) 0).testBit (7 - i % 8)

/-! ## Hash codec -/

/-- Errors of `readUint64s`: `io.ErrUnexpectedEOF` from `binary.Read` when the
stream ends inside an integer, and `errTooManyHashes`. -/
inductive ReadError where
  | unexpectedEOF
  | tooManyHashes
  deriving DecidableEq, Repr

/-- Go `binary.BigEndian.Uint64`: `uint64(b[7]) | uint64(b[6])<<8 | ... |
uint64(b[0])<<56`. -/
def beUint64 (b0 b1 b2 b3 b4 b5 b6 b7 : Nat) : Nat :=
  b7 ||| b6 <<< 8 ||| b5 <<< 16 ||| b4 <<< 24 ||| b3 <<< 32 ||| b2 <<< 40 ||| b1 <<< 48
    ||| b0 <<< 56

/-- Loop of `readUint64s` over the bytes still unread, with `result` so far.
`binary.Read` answers `io.EOF` when no byte is left (the loop returns
`result, nil`), `io.ErrUnexpectedEOF` when one to seven are left (the loop
returns `result, err`); after each `append` the count is checked against
`maxHashes` (`nil, errTooManyHashes`). -/
def readLoop : List Nat → List Nat → List Nat × Option ReadError
  | [], result => (result, none)
  | b0 :: b1 :: b2 :: b3 :: b4 :: b5 :: b6 :: b7 :: rest, result =>
    if (result ++ [beUint64 b0 b1 b2 b3 b4 b5 b6 b7]).length > maxHashes then
      ([], some ReadError.tooManyHashes)
    else readLoop rest (result ++ [beUint64 b0 b1 b2 b3 b4 b5 b6 b7])
  | _, result => (result, some ReadError.unexpectedEOF)

/-- Go `readUint64s`: reads uint64s, big-endian; no error if it reaches EOF. -/
def readUint64s (body : List Nat) : List Nat × Option ReadError :=
  readLoop body []

/-- Go `binary.BigEndian.PutUint64`: `b[0] = byte(v >> 56)`, ...,
`b[7] = byte(v)`: the 8-byte big-endian encoding of one value. -/
def putUint64 (v : Nat) : List Nat :=
  [(v >>> 56) % 256, (v >>> 48) % 256, (v >>> 40) % 256, (v >>> 32) % 256,
   (v >>> 24) % 256, (v >>> 16) % 256, (v >>> 8) % 256, v % 256]

/-- The wire format of a hash sequence: the concatenation of the 8-byte
big-endian encodings. -/
def encodeHashes : List Nat → List Nat
  | [] => []
  | v :: vs => putUint64 v ++ encodeHashes vs

/-! ## Upload store -/

/-- Go `sortHashes`: `sort.Slice` with `result[i] < result[j]`, the ascending
rearrangement of the slice. -/
def sortHashes (result : List Nat) : List Nat :=
  result.insertionSort (· ≤ ·)

/-- Go `_, ok := m[k]`: whether the map has the key. -/
def mapHas {V : Type} (m : List (String × V)) (k : String) : Bool :=
  (m.lookup k).isSome

/-- Go `m[k]`: the value under the key, the zero value when absent. -/
def mapGet {V : Type} (m : List (String × V)) (k : String) (zero : V) : V :=
  (m.lookup k).getD zero

/-- Go `delete(m, k)`. -/
def mapDelete {V : Type} (m : List (String × V)) (k : String) : List (String × V) :=
  m.filter (fun p => p.1 != k)

/-- Go `m[k] = v`. -/
def mapSet {V : Type} (m : List (String × V)) (k : String) (v : V) : List (String × V) :=
  (k, v) :: mapDelete m k

/-- The process-wide variables `uploads`, `uploadMatchCounts`, `uploadHistory`
and `uploadLock` (true when held), and the names of the `time.AfterFunc`
callbacks that have been armed and have not fired yet. -/
structure Store where
  uploads : List (String × List Nat)
  uploadMatchCounts : List (String × Nat)
  uploadHistory : List String
  uploadLock : Bool
  timers : List String
  deriving DecidableEq, Repr

/-- The variables at process start. -/
def Store.empty : Store :=
  { uploads := [], uploadMatchCounts := [], uploadHistory := [], uploadLock := false,
    timers := [] }

/-- Go `uploadLock.Lock()`: `none` when the mutex is held, where the caller
blocks; nothing in a handler releases a mutex another handler left held. -/
def lock (s : Store) : Option Store :=
  if s.uploadLock then none else some { s with uploadLock := true }

/-- Go `uploadLock.Unlock()`. -/
def unlock (s : Store) : Store :=
  { s with uploadLock := false }

/-- First loop of `cleanOldUploads`: `size := 0; for _, upload := range uploads
{ size = len(upload) }`, the keys visited in the order `iter` (Go leaves the
order of a map range unspecified). -/
def rangeSize (uploads : List (String × List Nat)) (iter : List String) : Int :=
  iter.foldl (fun _ k => ((mapGet uploads k []).length : Int)) 0

/-- Second loop of `cleanOldUploads`: `for size > maxTotalHashes &&
len(uploadHistory) > 0 { oldest, uploadHistory = uploadHistory[0],
uploadHistory[1:]; size -= len(uploads[oldest]); delete(uploads, oldest) }`.
Returns `uploads` and `uploadHistory`. -/
def evictLoop : Int → List (String × List Nat) → List String →
    List (String × List Nat) × List String
  | _, uploads, [] => (uploads, [])
  | size, uploads, oldest :: rest =>
    if size > (maxTotalHashes : Int) then
      evictLoop (size - ((mapGet uploads oldest []).length : Int)) (mapDelete uploads oldest) rest
    else (uploads, oldest :: rest)

/-- Go `cleanOldUploads`, called with `uploadLock` held. -/
def cleanOldUploads (s : Store) (iter : List String) : Store :=
  let r := evictLoop (rangeSize s.uploads iter) s.uploads s.uploadHistory
  { s with uploads := r.1, uploadHistory := r.2 }

/-- What a handler reads of `*http.Request`: the method, the values of the
`name` query parameter, and the bytes of the body. -/
structure Request where
  method : String
  nameList : List String
  body : List Nat
  deriving DecidableEq, Repr

/-- The messages passed to `writeError` (status 500). -/
inductive Failure where
  /-- "need a name arg" -/
  | needName
  /-- "that name's taken" -/
  | nameTaken
  /-- the error of `readUint64s`, with "reading" -/
  | reading (e : ReadError)
  /-- "upload missing" -/
  | uploadMissing
  /-- "whoops, upload empty" -/
  | uploadEmpty
  /-- "too many matches" -/
  | tooManyMatches
  deriving DecidableEq, Repr

/-- What a handler writes: `handleBrowser`'s page, an error (500), 204 with the
`Location` of the match endpoint, or 200 with the mask. -/
inductive Response where
  | browser
  | error (e : Failure)
  | noContent
  | ok (masks : List Nat)
  deriving DecidableEq, Repr

/-- Go `handleUpload`.  `iter` is the order in which the range loop of
`cleanOldUploads` visits the map.  `none`: the handler blocks in
`uploadLock.Lock()`. -/
def handleUpload (s : Store) (r : Request) (iter : List String) : Option (Response × Store) :=
  if r.method ≠ "PUT" then some (Response.browser, s)
  else if r.nameList.length ≠ 1 then some (Response.error Failure.needName, s)
  else
    let name := r.nameList.headD ""
    match lock s with
    | none => none
    | some s1 =>
      if mapHas s1.uploads name then
        -- `writeError` and `return`, with no `Unlock`
        some (Response.error Failure.nameTaken, s1)
      else
        let s2 := unlock s1
        match readUint64s r.body with
        | (_, some err) => some (Response.error (Failure.reading err), s2)
        | (upload, none) =>
          match lock s2 with
          | none => none
          | some s3 =>
            let s4 := cleanOldUploads
              { s3 with uploads := mapSet s3.uploads name (sortHashes upload),
                        uploadHistory := s3.uploadHistory ++ [name] } iter
            let s5 := unlock s4
            some (Response.noContent, { s5 with timers := s5.timers ++ [name] })

/-- Go `handleMatch`.  `none`: the handler blocks in `uploadLock.Lock()`.  The
test `upload == nil` is `upload = []`: a stored slice is nil exactly when it is
empty.  `needles` is the source's `matches`. -/
def handleMatch (s : Store) (r : Request) : Option (Response × Store) :=
  if r.method ≠ "PUT" then some (Response.browser, s)
  else if r.nameList.length ≠ 1 then some (Response.error Failure.needName, s)
  else
    let name := r.nameList.headD ""
    match lock s with
    | none => none
    | some s1 =>
      let upload := mapGet s1.uploads name []
      let s2 := unlock s1
      if upload.length = 0 then
        if upload = [] then some (Response.error Failure.uploadMissing, s2)
        else some (Response.error Failure.uploadEmpty, s2)
      else
        match readUint64s r.body with
        | (_, some err) => some (Response.error (Failure.reading err), s2)
        | (needles, none) =>
          match lock s2 with
          | none => none
          | some s3 =>
            let count := mapGet s3.uploadMatchCounts name 0 + needles.length
            let s4 := { s3 with uploadMatchCounts := mapSet s3.uploadMatchCounts name count }
            if count > maxMatchesPerUpload then
              some (Response.error Failure.tooManyMatches,
                unlock { s4 with uploads := mapDelete s4.uploads name })
            else some (Response.ok (findHashes needles upload), unlock s4)

/-- The callback armed by `handleUpload` with `time.AfterFunc(24*time.Hour, ...)`:
`uploadLock.Lock(); delete(uploads, name); uploadLock.Unlock()`.  `none`: it
blocks in `uploadLock.Lock()`. -/
def expire (s : Store) (name : String) : Option Store :=
  match lock s with
  | none => none
  | some s1 => some (unlock { s1 with uploads := mapDelete s1.uploads name })

/-- What happens to the store, one at a time: a request to the upload endpoint
(with the order of the map range), a request to the match endpoint, the expiry
callback of a name firing. -/
inductive Event where
  | upload (r : Request) (iter : List String)
  | query (r : Request)
  | timer (name : String)
  deriving DecidableEq, Repr

/-- The store after an event.  A handler or callback that blocks in
`uploadLock.Lock()` changes nothing; a callback fires only if it is armed, and
leaves the armed ones when it does. -/
def step (s : Store) : Event → Store
  | Event.upload r iter =>
    match handleUpload s r iter with
    | some p => p.2
    | none => s
  | Event.query r =>
    match handleMatch s r with
    | some p => p.2
    | none => s
  | Event.timer name =>
    if name ∈ s.timers then
      match expire s name with
      | some s1 => { s1 with timers := s1.timers.erase name }
      | none => { s with timers := s.timers.erase name }
    else s

/-- The store after a sequence of events. -/
def run (s : Store) (events : List Event) : Store :=
  events.foldl step s

/-- Total number of hashes held by the map: the sum of `len(upload)` over its
entries. -/
def totalHashes (uploads : List (String × List Nat)) : Nat :=
  (uploads.map (fun p => p.2.length)).sum

/-- Whether needle number `t` exists and `findHash` reports it found. -/
def hit (needles haystack : List Nat) (t : Nat) : Bool :=
  match needles[t]? with
  | some x => findHash x haystack
  | none => false

/-! ## Interleaved deposits -/

/-- Where a request to the upload endpoint stands: not started; past the name
check, with the lock released and the body still to be read; answered. -/
inductive Phase where
  | start
  | checked
  | done (resp : Response)
  deriving DecidableEq, Repr

/-- One stretch of `handleUpload` that no other request can cut into.  From
`start`: the method and name tests and the first critical section, `Lock`,
the test `_, ok := uploads[name]`, then the name-taken return or `Unlock`.
From `checked`: `readUint64s` on the request's own body, `sortHashes`, and the
second critical section, `Lock`, `uploads[name] = upload`, the append to
`uploadHistory`, `cleanOldUploads`, `Unlock`, followed by `time.AfterFunc`.
`none`: blocked in `Lock()`, or the request is answered already. -/
def advanceUpload (s : Store) (r : Request) (iter : List String) :
    Phase → Option (Phase × Store)
  | Phase.start =>
    if r.method ≠ "PUT" then some (Phase.done Response.browser, s)
    else if r.nameList.length ≠ 1 then
      some (Phase.done (Response.error Failure.needName), s)
    else
      match lock s with
      | none => none
      | some s1 =>
        if mapHas s1.uploads (r.nameList.headD "") then
          some (Phase.done (Response.error Failure.nameTaken), s1)
        else some (Phase.checked, unlock s1)
  | Phase.checked =>
    match readUint64s r.body with
    | (_, some err) => some (Phase.done (Response.error (Failure.reading err)), s)
    | (upload, none) =>
      match lock s with
      | none => none
      | some s3 =>
        let s4 := cleanOldUploads
          { s3 with uploads := mapSet s3.uploads (r.nameList.headD "") (sortHashes upload),
                    uploadHistory := s3.uploadHistory ++ [r.nameList.headD ""] } iter
        let s5 := unlock s4
        some (Phase.done Response.noContent,
          { s5 with timers := s5.timers ++ [r.nameList.headD ""] })
  | Phase.done _ => none

/-- A request to the upload endpoint served with no other request in between:
its stretches one after the other. -/
def serveAlone (s : Store) (r : Request) (iter : List String) : Option (Response × Store) :=
  match advanceUpload s r iter Phase.start with
  | some (Phase.done resp, s1) => some (resp, s1)
  | some (Phase.checked, s1) =>
    match advanceUpload s1 r iter Phase.checked with
    | some (Phase.done resp, s2) => some (resp, s2)
    | _ => none
  | _ => none

/-! ## Client: the key of a line -/

/-- Go `const delimiters = "\r\n\t ,"`, as bytes. -/
def delimiters : List Nat := [13, 10, 9, 32, 44]

/-- What `unicode.ToUpper` does to an ASCII character: `if 'a' <= r && r <= 'z'
{ r -= 'a' - 'A' }`. -/
def upperASCII (c : Nat) : Nat :=
  if 97 ≤ c ∧ c ≤ 122 then c - 32 else c

/-- Go `utf8.RuneError`. -/
def runeError : Nat := 0xFFFD

/-- The table `first` of package `utf8`: `as` (0xF0) for ASCII, `xx` (0xF1)
for a byte that starts no rune, otherwise the size in the low bits and the
index of the accept range in the high bits. -/
def utf8First (b : Nat) : Nat :=
  if b < 0x80 then 0xF0
  else if b < 0xC2 then 0xF1
  else if b < 0xE0 then 0x02
  else if b = 0xE0 then 0x13
  else if b < 0xED then 0x03
  else if b = 0xED then 0x23
  else if b < 0xF0 then 0x03
  else if b = 0xF0 then 0x34
  else if b < 0xF4 then 0x04
  else if b = 0xF4 then 0x44
  else 0xF1

/-- The table `acceptRanges` of package `utf8`: `lo` and `hi` of the second
byte. -/
def utf8Accept (i : Nat) : Nat × Nat :=
  if i = 0 then (0x80, 0xBF)
  else if i = 1 then (0xA0, 0xBF)
  else if i = 2 then (0x80, 0x9F)
  else if i = 3 then (0x90, 0xBF)
  else if i = 4 then (0x80, 0x8F)
  else (0, 0)

/-- Go `utf8.DecodeRune(p)`: the rune at the start of `p` and its width in
bytes; `(RuneError, 1)` for an encoding that is not valid. -/
def decodeRune (p : List Nat) : Nat × Nat :=
  if p.length < 1 then (runeError, 0)
  else if utf8First (p.getD 0 0) ≥ 0xF0 then
    (if utf8First (p.getD 0 0) % 2 = 0 then p.getD 0 0 else runeError, 1)
  else if p.length < utf8First (p.getD 0 0) % 8 then (runeError, 1)
  else if p.getD 1 0 < (utf8Accept (utf8First (p.getD 0 0) / 16)).1
      ∨ (utf8Accept (utf8First (p.getD 0 0) / 16)).2 < p.getD 1 0 then (runeError, 1)
  else if utf8First (p.getD 0 0) % 8 ≤ 2 then
    (((p.getD 0 0 &&& 0x1F) <<< 6) ||| (p.getD 1 0 &&& 0x3F), 2)
  else if p.getD 2 0 < 0x80 ∨ 0xBF < p.getD 2 0 then (runeError, 1)
  else if utf8First (p.getD 0 0) % 8 ≤ 3 then
    (((p.getD 0 0 &&& 0x0F) <<< 12) ||| ((p.getD 1 0 &&& 0x3F) <<< 6)
      ||| (p.getD 2 0 &&& 0x3F), 3)
  else if p.getD 3 0 < 0x80 ∨ 0xBF < p.getD 3 0 then (runeError, 1)
  else
    (((p.getD 0 0 &&& 0x07) <<< 18) ||| ((p.getD 1 0 &&& 0x3F) <<< 12)
      ||| ((p.getD 2 0 &&& 0x3F) <<< 6) ||| (p.getD 3 0 &&& 0x3F), 4)

/-- Go `bytes.Map(unicode.ToUpper, s)`: rune by rune, `wid := 1; r := rune(s[i]);
if r >= utf8.RuneSelf { r, wid = utf8.DecodeRune(s[i:]) }; r = mapping(r);
b = utf8.AppendRune(b, r); i += wid`.  `emit r` stands for the bytes of
`unicode.ToUpper(r)` for a rune that does not start with an ASCII byte: the
Unicode case tables are not modelled.  The first argument bounds the number
of runes; `len(s)` always suffices (`mapUpper_fuel`). -/
def mapUpper (emit : Nat → List Nat) : Nat → List Nat → List Nat
  | 0, _ => []
  | _ + 1, [] => []
  | fuel + 1, c :: rest =>
    if c < 0x80 then upperASCII c :: mapUpper emit fuel rest
    else
      emit (decodeRune (c :: rest)).1
        ++ mapUpper emit fuel ((c :: rest).drop (decodeRune (c :: rest)).2)

/-- Go `bufio.MaxScanTokenSize`, the size the buffer of a `bufio.Scanner` may
grow to: `64 * 1024`. -/
def maxScanTokenSize : Nat := 64 * 1024

/-- Why `Scanner.Scan` answered false: the input is at its end (`Err()` is
nil, which `nextLine` turns into `io.EOF`), a line does not fit the buffer
(`bufio.ErrTooLong`), or the reader failed. -/
inductive ScanError where
  | eof
  | tooLong
  | readError
  deriving DecidableEq, Repr

/-- A `bufio.NewScanner(in)`, whose split function is `ScanLines`: the bytes of
the input it has not returned yet, and whether the reader ends them with an
error of its own instead of `io.EOF`. -/
structure Scanner where
  input : List Nat
  readFails : Bool
  deriving DecidableEq, Repr

/-- Go `dropCR` of package `bufio`: `if len(data) > 0 && data[len(data)-1] ==
'\r' { return data[0 : len(data)-1] }; return data`. -/
def dropCR (data : List Nat) : List Nat :=
  if data.getLast? = some 13 then data.dropLast else data

/-- Go `s.Scan()` followed by `s.Bytes()`.  With no input left `Scan` answers
false, `Err()` being nil at the end of the file and the error of the reader
otherwise.  Else the token is the input up to the first `\n`, or all of it
when there is none, without one trailing `\r`.  `Scan` finds the token only
when the line and its `\n` fit the buffer of `maxScanTokenSize` bytes; for a
line of `maxScanTokenSize` bytes or more it sets `ErrTooLong` and answers
false. -/
def scan (s : Scanner) : Except ScanError (List Nat × Scanner) :=
  if s.input = [] then
    Except.error (if s.readFails then ScanError.readError else ScanError.eof)
  else if (s.input.takeWhile (fun c => c != 10)).length ≥ maxScanTokenSize then
    Except.error ScanError.tooLong
  else
    Except.ok (dropCR (s.input.takeWhile (fun c => c != 10)),
      { s with input := s.input.drop ((s.input.takeWhile (fun c => c != 10)).length + 1) })

/-- Two bytes that are equal, or the lower-case and the upper-case form of one
ASCII letter. -/
def sameLetter (a b : Nat) : Prop :=
  a = b ∨ (97 ≤ a ∧ a ≤ 122 ∧ a = b + 32) ∨ (97 ≤ b ∧ b ≤ 122 ∧ b = a + 32)

instance sameLetterDecidable (a b : Nat) : Decidable (sameLetter a b) := by
  unfold sameLetter
  exact inferInstance

/-! ## Client: reading the mask -/

/-- Inner loop of `matchMain`: `for i := 7; i >= 0; i-- { if !s.Scan() { break };
if (mask>>uint(i))&1 == 1 { fmt.Fprintln(matchesOut, s.Text()); matches++ } }`,
with the first argument `i + 1`.  `rows` are the lines the scanner has not
returned yet, `out` the lines written so far (`matches` is their number).
Returns the lines left and the lines written. -/
def unpackByte {α : Type} (mask : Nat) : Nat → List α → List α → List α × List α
  | 0, rows, out => (rows, out)
  | _ + 1, [], out => ([], out)
  | i + 1, row :: rows, out =>
    unpackByte mask i rows (if (mask >>> i) &&& 1 = 1 then out ++ [row] else out)

/-- Outer loop of `matchMain`: `for _, mask := range masks { ... }`; a `break`
leaves the inner loop only, and the scanner keeps answering false at the end
of the file. -/
def unpackMasks {α : Type} : List Nat → List α → List α → List α × List α
  | [], rows, out => (rows, out)
  | mask :: masks, rows, out =>
    unpackMasks masks (unpackByte mask 8 rows out).1 (unpackByte mask 8 rows out).2

/-- The rows whose number satisfies `sel`, the first row having number
`start`. -/
def selectRows {α : Type} (sel : Nat → Bool) : Nat → List α → List α
  | _, [] => []
  | start, row :: rows =>
    if sel start then row :: selectRows sel (start + 1) rows
    else selectRows sel (start + 1) rows

/-! ## Binary search -/

/-- The search loop stays inside `[i, j]`, whatever the predicate and the
fuel. -/
theorem searchLoop_bounds (f : Nat → Bool) :
    ∀ (fuel i j : Nat), i ≤ j → i ≤ searchLoop f fuel i j ∧ searchLoop f fuel i j ≤ j := by
  intro fuel
  induction fuel with
  | zero => intro i j hij; simp [searchLoop, hij]
  | succ n ih =>
    intro i j hij
    unfold searchLoop
    by_cases hlt : i < j
    · simp only [hlt, if_true]
      by_cases hf : f ((i + j) / 2) = true
      · have := ih i ((i + j) / 2) (by omega)
        simp only [hf, Bool.not_true, Bool.false_eq_true, if_false]
        constructor
        · exact this.1
        · have := this.2; omega
      · simp only [Bool.not_eq_true] at hf
        have := ih ((i + j) / 2 + 1) j (by omega)
        simp only [hf, Bool.not_false, if_true]
        constructor
        · have := this.1; omega
        · exact this.2
    · simp only [hlt, if_false]; omega

/-- Once the fuel covers `j - i`, the loop has run to its exit: more fuel
does not change the result. -/
theorem searchLoop_fuel (f : Nat → Bool) :
    ∀ (fuel extra i j : Nat), j - i ≤ fuel →
      searchLoop f (fuel + extra) i j = searchLoop f fuel i j := by
  intro fuel
  induction fuel with
  | zero =>
    intro extra i j h
    have hij : ¬ i < j := by omega
    cases extra with
    | zero => rfl
    | succ e => simp [searchLoop, hij]
  | succ n ih =>
    intro extra i j h
    have e : n + 1 + extra = (n + extra) + 1 := by omega
    rw [e]
    unfold searchLoop
    by_cases hlt : i < j
    · simp only [hlt, if_true]
      by_cases hf : f ((i + j) / 2) = true
      · simp only [hf, Bool.not_true]
        exact ih extra i ((i + j) / 2) (by omega)
      · simp only [Bool.not_eq_true] at hf
        simp only [hf, Bool.not_false, if_true]
        exact ih extra ((i + j) / 2 + 1) j (by omega)
    · simp only [hlt, if_false]

/-- For a predicate that is monotone on `[0, n)`, the loop returns the
boundary: false strictly below the result, true from the result on. -/
theorem searchLoop_spec (f : Nat → Bool) (n : Nat)
    (mono : ∀ a b, a ≤ b → b < n → f a = true → f b = true) :
    ∀ (fuel i j : Nat), j - i ≤ fuel → i ≤ j → j ≤ n →
      (∀ k, k < i → f k = false) → (∀ k, j ≤ k → k < n → f k = true) →
      (∀ k, k < searchLoop f fuel i j → f k = false) ∧
      (∀ k, searchLoop f fuel i j ≤ k → k < n → f k = true) := by
  intro fuel
  induction fuel with
  | zero =>
    intro i j hf hij hjn lo hi
    have : i = j := by omega
    subst this
    simp only [searchLoop]
    exact ⟨lo, hi⟩
  | succ m ih =>
    intro i j hf hij hjn lo hi
    unfold searchLoop
    by_cases hlt : i < j
    · simp only [hlt, if_true]
      by_cases hh : f ((i + j) / 2) = true
      · simp only [hh, Bool.not_true]
        refine ih i ((i + j) / 2) (by omega) (by omega) (by omega) lo ?_
        intro k hk hkn
        exact mono _ _ hk hkn hh
      · simp only [Bool.not_eq_true] at hh
        simp only [hh, Bool.not_false, if_true]
        refine ih ((i + j) / 2 + 1) j (by omega) (by omega) hjn ?_ hi
        intro k hk
        by_contra hc
        simp only [Bool.not_eq_false] at hc
        have := mono k ((i + j) / 2) (by omega) (by omega) hc
        simp [hh] at this
    · simp only [hlt, if_false]
      have : i = j := by omega
      subst this
      exact ⟨lo, hi⟩

/-- A positive answer of `findHash` names an index of the haystack that holds
the needle; no sortedness is needed for this direction. -/
theorem findHash_sound (needle : Nat) (haystack : List Nat)
    (h : findHash needle haystack = true) : needle ∈ haystack := by
  unfold findHash at h
  simp only at h
  split at h
  · exact absurd h (by simp)
  · rename_i hc
    simp only [not_or, not_not] at hc
    have hb := (searchLoop_bounds (fun i => decide (haystack.getD i 0 ≥ needle))
      haystack.length 0 haystack.length (Nat.zero_le _)).2
    have hlt : search haystack.length (fun i => decide (haystack.getD i 0 ≥ needle))
        < haystack.length := lt_of_le_of_ne hb hc.1
    rw [List.getD_eq_getElem _ _ hlt] at hc
    exact List.mem_iff_getElem.mpr ⟨_, hlt, hc.2⟩

/-- In a sorted list, entries are ordered along the indices. -/
theorem sorted_getD_le (l : List Nat) (hs : l.Sorted (· ≤ ·)) (a b : Nat)
    (hab : a ≤ b) (hb : b < l.length) : l.getD a 0 ≤ l.getD b 0 := by
  rw [List.getD_eq_getElem _ _ hb, List.getD_eq_getElem _ _ (lt_of_le_of_lt hab hb)]
  rcases Nat.eq_or_lt_of_le hab with e | hlt
  · subst e; exact le_rfl
  · exact (List.pairwise_iff_getElem.mp hs) a b _ hb hlt

/-- On a sorted haystack `findHash` decides membership. -/
theorem findHash_iff_mem (needle : Nat) (haystack : List Nat)
    (hs : haystack.Sorted (· ≤ ·)) :
    findHash needle haystack = true ↔ needle ∈ haystack := by
  constructor
  · exact findHash_sound needle haystack
  · intro hmem
    obtain ⟨t, ht, hval⟩ := List.mem_iff_getElem.mp hmem
    have mono : ∀ a b, a ≤ b → b < haystack.length →
        (fun i => decide (haystack.getD i 0 ≥ needle)) a = true →
        (fun i => decide (haystack.getD i 0 ≥ needle)) b = true := by
      intro a b hab hb ha
      simp only [ge_iff_le, decide_eq_true_eq] at ha ⊢
      exact le_trans ha (sorted_getD_le haystack hs a b hab hb)
    have spec := searchLoop_spec _ haystack.length mono haystack.length 0 haystack.length
      (by omega) (Nat.zero_le _) le_rfl (by intro k hk; omega) (by intro k hk hkn; omega)
    have hb := (searchLoop_bounds (fun i => decide (haystack.getD i 0 ≥ needle))
      haystack.length 0 haystack.length (Nat.zero_le _)).2
    have hft : (fun i => decide (haystack.getD i 0 ≥ needle)) t = true := by
      simp only [ge_iff_le, decide_eq_true_eq]
      rw [List.getD_eq_getElem _ _ ht, hval]
    -- the result is at most `t`, hence a valid index
    have hrt : searchLoop (fun i => decide (haystack.getD i 0 ≥ needle))
        haystack.length 0 haystack.length ≤ t := by
      by_contra hc
      have h1 := spec.1 t (by omega)
      have h2 : decide (haystack.getD t 0 ≥ needle) = true := hft
      rw [h2] at h1
      exact Bool.noConfusion h1
    have hrl : searchLoop (fun i => decide (haystack.getD i 0 ≥ needle))
        haystack.length 0 haystack.length < haystack.length := by omega
    have hge := spec.2 _ le_rfl hrl
    simp only [ge_iff_le, decide_eq_true_eq] at hge
    have hle := sorted_getD_le haystack hs _ t hrt ht
    rw [List.getD_eq_getElem _ _ ht, hval] at hle
    unfold findHash search
    simp only
    rw [if_neg]
    simp only [not_or, not_not]
    exact ⟨by omega, le_antisymm hle hge⟩

/-! ## Mask packing -/

theorem hit_of_lt (needles haystack : List Nat) (t : Nat) (h : t < needles.length) :
    hit needles haystack t = findHash needles[t] haystack := by
  simp [hit, List.getElem?_eq_getElem h]

theorem hit_of_ge (needles haystack : List Nat) (t : Nat) (h : needles.length ≤ t) :
    hit needles haystack t = false := by
  simp [hit, List.getElem?_eq_none h]

/-- The index reached by the inner loop: `j + 1` needles further, or the end. -/
theorem maskLoop_fst (needles haystack : List Nat) :
    ∀ (k i mask : Nat), i ≤ needles.length →
      (maskLoop needles haystack k i mask).1 = min (i + k) needles.length := by
  intro k
  induction k with
  | zero => intro i mask h; simp [maskLoop, h]
  | succ k ih =>
    intro i mask h
    unfold maskLoop
    by_cases hlt : i < needles.length
    · simp only [hlt, dite_true]
      rw [ih (i + 1) _ (by omega)]
      omega
    · simp only [hlt, dite_false]
      omega

/-- The bits written by the inner loop: bit `p < j + 1` receives the answer for
needle `i + (j - p)`, the other bits of `mask` are kept. -/
theorem maskLoop_snd (needles haystack : List Nat) :
    ∀ (k i mask p : Nat),
      ((maskLoop needles haystack k i mask).2).testBit p =
        (mask.testBit p || (decide (p < k) && hit needles haystack (i + (k - 1 - p)))) := by
  intro k
  induction k with
  | zero => intro i mask p; simp [maskLoop]
  | succ k ih =>
    intro i mask p
    unfold maskLoop
    by_cases hlt : i < needles.length
    · simp only [hlt, dite_true]
      rw [ih (i + 1) _ p]
      have hbit : (if findHash needles[i] haystack = true then mask ||| 1 <<< k else mask).testBit p
          = (mask.testBit p || (decide (p = k) && hit needles haystack i)) := by
        rw [hit_of_lt needles haystack i hlt]
        by_cases hf : findHash needles[i] haystack = true
        · simp only [hf, if_true, Nat.testBit_or, Nat.one_shiftLeft, Nat.testBit_two_pow,
            Bool.and_true]
          by_cases hpk : p = k
          · subst hpk; simp
          · have : ¬ k = p := fun e => hpk e.symm
            simp [hpk, this]
        · simp only [Bool.not_eq_true] at hf
          simp [hf]
      rw [hbit]
      rcases Nat.lt_trichotomy p k with h1 | h1 | h1
      · have e1 : i + 1 + (k - 1 - p) = i + (k + 1 - 1 - p) := by omega
        have e2 : ¬ p = k := by omega
        have e3 : p < k + 1 := by omega
        simp [h1, e1, e2, e3]
      · subst h1
        simp
      · have e2 : ¬ p = k := by omega
        have e3 : ¬ p < k + 1 := by omega
        have e4 : ¬ p < k := by omega
        simp [e2, e3, e4]
    · simp only [hlt, dite_false]
      rw [hit_of_ge needles haystack _ (by omega)]
      simp

/-- Reading a bit of a mask that has just received one more byte. -/
theorem maskBit_append (out : List Nat) (m t : Nat) :
    maskBit (out ++ [m]) t =
      if t / 8 < out.length then maskBit out t
      else if t / 8 = out.length then m.testBit (7 - t % 8) else false := by
  unfold maskBit
  by_cases h1 : t / 8 < out.length
  · simp only [h1, if_true]
    rw [List.getD_append _ _ _ _ h1]
  · simp only [h1, if_false]
    rw [List.getD_append_right _ _ _ _ (by omega)]
    by_cases h2 : t / 8 = out.length
    · simp [h2]
    · simp only [h2, if_false]
      rw [List.getD_eq_default _ _ (by simp; omega)]
      simp

/-- The outer loop is over once `i` has reached the end of the needles. -/
theorem outLoop_done (needles haystack : List Nat) (fuel i : Nat) (out : List Nat)
    (h : needles.length ≤ i) : outLoop needles haystack fuel i out = out := by
  cases fuel with
  | zero => rfl
  | succ n =>
    have : ¬ i < needles.length := by omega
    simp [outLoop, this]

/-- Invariant of the outer loop: with `i = 8 * len(out)` needles consumed and
the bits of `out` answering them, the loop ends with `ceil(n/8)` bytes whose
bit `t` answers needle `t` (and is 0 past the last needle). -/
theorem outLoop_spec (needles haystack : List Nat) :
    ∀ (fuel i : Nat) (out : List Nat), needles.length - i ≤ fuel → i ≤ needles.length →
      i = 8 * out.length →
      (∀ t, maskBit out t = (decide (t < i) && hit needles haystack t)) →
      (outLoop needles haystack fuel i out).length = (needles.length + 7) / 8 ∧
      ∀ t, maskBit (outLoop needles haystack fuel i out) t = hit needles haystack t := by
  intro fuel
  induction fuel with
  | zero =>
    intro i out hf hi hio hbits
    have e : i = needles.length := by omega
    simp only [outLoop]
    refine ⟨by omega, ?_⟩
    intro t
    rw [hbits t]
    by_cases ht : t < i
    · simp [ht]
    · rw [hit_of_ge needles haystack t (by omega)]; simp
  | succ n ih =>
    intro i out hf hi hio hbits
    by_cases hlt : i < needles.length
    · have hstep : outLoop needles haystack (n + 1) i out =
          outLoop needles haystack n (maskLoop needles haystack 8 i 0).1
            (out ++ [(maskLoop needles haystack 8 i 0).2]) := by
        simp [outLoop, hlt]
      rw [hstep, maskLoop_fst needles haystack 8 i 0 hi]
      have hbits2 : ∀ t, maskBit (out ++ [(maskLoop needles haystack 8 i 0).2]) t =
          (decide (t < i + 8) && hit needles haystack t) := by
        intro t
        rw [maskBit_append]
        by_cases h1 : t / 8 < out.length
        · have : t < i := by omega
          have h3 : t < i + 8 := by omega
          simp [h1, hbits t, this, h3]
        · by_cases h2 : t / 8 = out.length
          · have e1 : i + (8 - 1 - (7 - t % 8)) = t := by omega
            have e2 : 7 - t % 8 < 8 := by omega
            have e3 : t < i + 8 := by omega
            simp [h2, maskLoop_snd, e1, e2, e3]
          · have e3 : ¬ t < i + 8 := by omega
            simp [h1, h2, e3]
      by_cases hfull : i + 8 ≤ needles.length
      · rw [Nat.min_eq_left hfull]
        exact ih (i + 8) _ (by omega) hfull (by simp; omega) hbits2
      · rw [Nat.min_eq_right (by omega), outLoop_done _ _ _ _ _ le_rfl]
        refine ⟨by simp; omega, ?_⟩
        intro t
        rw [hbits2 t]
        by_cases ht : t < i + 8
        · simp [ht]
        · rw [hit_of_ge needles haystack t (by omega)]; simp
    · have e : i = needles.length := by omega
      rw [outLoop_done _ _ _ _ _ (by omega)]
      refine ⟨by omega, ?_⟩
      intro t
      rw [hbits t]
      by_cases ht : t < i
      · simp [ht]
      · rw [hit_of_ge needles haystack t (by omega)]; simp

/-- The mask has `ceil(n/8)` bytes. -/
theorem findHashes_length (needles haystack : List Nat) :
    (findHashes needles haystack).length = (needles.length + 7) / 8 :=
  (outLoop_spec needles haystack needles.length 0 [] (by omega) (Nat.zero_le _) rfl
    (by intro t; simp [maskBit])).1

/-- Bit `t` of the mask is the answer of `findHash` for needle `t`, and 0 when
there is no needle `t`. -/
theorem findHashes_bit (needles haystack : List Nat) (t : Nat) :
    maskBit (findHashes needles haystack) t = hit needles haystack t :=
  (outLoop_spec needles haystack needles.length 0 [] (by omega) (Nat.zero_le _) rfl
    (by intro t; simp [maskBit])).2 t


/-! ## Hash codec -/

/-- Or-ing a value shifted past the bits of `x` adds it. -/
theorem or_shift (x b k : Nat) (hx : x < 2 ^ k) : x ||| b <<< k = x + b * 2 ^ k := by
  rw [Nat.shiftLeft_eq, Nat.lor_comm, Nat.mul_comm b, ← Nat.mul_add_lt_is_or hx b, Nat.add_comm]

/-- On bytes, `beUint64` is the big-endian positional value. -/
theorem beUint64_eq (b0 b1 b2 b3 b4 b5 b6 b7 : Nat) (h1 : b1 < 256)
    (h2 : b2 < 256) (h3 : b3 < 256) (h4 : b4 < 256) (h5 : b5 < 256) (h6 : b6 < 256)
    (h7 : b7 < 256) :
    beUint64 b0 b1 b2 b3 b4 b5 b6 b7 =
      b7 + b6 * 2 ^ 8 + b5 * 2 ^ 16 + b4 * 2 ^ 24 + b3 * 2 ^ 32 + b2 * 2 ^ 40 + b1 * 2 ^ 48
        + b0 * 2 ^ 56 := by
  unfold beUint64
  rw [or_shift b7 b6 8 (by omega), or_shift _ b5 16 (by omega), or_shift _ b4 24 (by omega),
    or_shift _ b3 32 (by omega), or_shift _ b2 40 (by omega), or_shift _ b1 48 (by omega),
    or_shift _ b0 56 (by omega)]

/-- Decoding the encoding of a 64-bit value gives the value back. -/
theorem beUint64_putUint64 (v : Nat) (hv : v < 2 ^ 64) :
    beUint64 ((v >>> 56) % 256) ((v >>> 48) % 256) ((v >>> 40) % 256) ((v >>> 32) % 256)
      ((v >>> 24) % 256) ((v >>> 16) % 256) ((v >>> 8) % 256) (v % 256) = v := by
  rw [beUint64_eq _ _ _ _ _ _ _ _ (Nat.mod_lt _ (by decide))
    (Nat.mod_lt _ (by decide)) (Nat.mod_lt _ (by decide)) (Nat.mod_lt _ (by decide))
    (Nat.mod_lt _ (by decide)) (Nat.mod_lt _ (by decide)) (Nat.mod_lt _ (by decide))]
  simp only [Nat.shiftRight_eq_div_pow]
  omega

/-- The read loop on an encoded sequence that fits under the ceiling appends
the sequence to `result`. -/
theorem readLoop_encode : ∀ (xs result : List Nat), (∀ x ∈ xs, x < 2 ^ 64) →
    result.length + xs.length ≤ maxHashes →
    readLoop (encodeHashes xs) result = (result ++ xs, none) := by
  intro xs
  induction xs with
  | nil => intro result _ _; simp [encodeHashes, readLoop]
  | cons v vs ih =>
    intro result hb hl
    have hv : v < 2 ^ 64 := hb v (List.mem_cons_self _ _)
    simp only [List.length_cons] at hl
    have hng : ¬ result.length + 1 > maxHashes := by omega
    simp only [encodeHashes, putUint64, List.cons_append, List.nil_append, readLoop,
      beUint64_putUint64 v hv, List.length_append, List.length_singleton, hng, if_false]
    show readLoop (encodeHashes vs) (result ++ [v]) = _
    rw [ih (result ++ [v]) (fun x hx => hb x (List.mem_cons_of_mem _ hx))
      (by simp only [List.length_append, List.length_singleton]; omega)]
    simp

/-- When the read loop fails: the stream ends inside an integer, or holds more
complete records than the ceiling allows; in the second case the error is
`errTooManyHashes` and the result nil. -/
theorem readLoop_err_iff : ∀ (body result : List Nat), result.length ≤ maxHashes →
    (((readLoop body result).2 ≠ none ↔
      (body.length % 8 ≠ 0 ∨ result.length + body.length / 8 > maxHashes)) ∧
     (result.length + body.length / 8 > maxHashes →
       readLoop body result = ([], some ReadError.tooManyHashes))) := by
  intro body result
  induction body, result using readLoop.induct with
  | case1 result => intro h; simp [readLoop]; omega
  | case2 b0 b1 b2 b3 b4 b5 b6 b7 rest result hgt =>
    intro h
    simp only [List.length_append, List.length_singleton] at hgt
    have hl : (b0 :: b1 :: b2 :: b3 :: b4 :: b5 :: b6 :: b7 :: rest).length
        = rest.length + 8 := by simp
    rw [hl]
    simp only [readLoop, List.length_append, List.length_singleton, hgt, if_true]
    simp
    omega
  | case3 b0 b1 b2 b3 b4 b5 b6 b7 rest result hgt ih =>
    intro h
    simp only [List.length_append, List.length_singleton] at hgt ih
    have hl : (b0 :: b1 :: b2 :: b3 :: b4 :: b5 :: b6 :: b7 :: rest).length
        = rest.length + 8 := by simp
    rw [hl]
    simp only [readLoop, List.length_append, List.length_singleton, hgt, if_false]
    have := ih (by omega)
    have e1 : (rest.length + 8) % 8 = rest.length % 8 := by omega
    have e2 : (rest.length + 8) / 8 = rest.length / 8 + 1 := by omega
    rw [e1, e2]
    constructor
    · rw [this.1]; constructor <;> intro h' <;> omega
    · intro h'; exact this.2 (by omega)
  | case4 body result h1 h2 =>
    intro h
    have hlen : 0 < body.length ∧ body.length < 8 := by
      rcases body with _ | ⟨b0, _ | ⟨b1, _ | ⟨b2, _ | ⟨b3, _ | ⟨b4, _ | ⟨b5, _ | ⟨b6, _ |
        ⟨b7, rest⟩⟩⟩⟩⟩⟩⟩⟩
      · exact absurd rfl h1
      all_goals first
        | exact absurd rfl (h2 _ _ _ _ _ _ _ _ _)
        | (simp)
    have hr : readLoop body result = (result, some ReadError.unexpectedEOF) := by
      rw [readLoop]
      · exact h1
      · exact h2
    rw [hr]
    have e : body.length / 8 = 0 := by omega
    simp only [e]
    constructor
    · simp; omega
    · intro h'; omega

/-- A stream that ends inside an integer before the ceiling is passed fails
with `io.ErrUnexpectedEOF`. -/
theorem readLoop_truncated : ∀ (body result : List Nat),
    result.length + body.length / 8 ≤ maxHashes → body.length % 8 ≠ 0 →
    (readLoop body result).2 = some ReadError.unexpectedEOF := by
  intro body result
  induction body, result using readLoop.induct with
  | case1 result => intro _ h; simp at h
  | case2 b0 b1 b2 b3 b4 b5 b6 b7 rest result hgt =>
    intro h _
    have hl : (b0 :: b1 :: b2 :: b3 :: b4 :: b5 :: b6 :: b7 :: rest).length
        = rest.length + 8 := by simp
    rw [hl] at h
    simp only [List.length_append, List.length_singleton] at hgt
    omega
  | case3 b0 b1 b2 b3 b4 b5 b6 b7 rest result hgt ih =>
    intro h hm
    have hl : (b0 :: b1 :: b2 :: b3 :: b4 :: b5 :: b6 :: b7 :: rest).length
        = rest.length + 8 := by simp
    rw [hl] at h hm
    simp only [List.length_append, List.length_singleton] at hgt ih
    simp only [readLoop, List.length_append, List.length_singleton, hgt, if_false]
    exact ih (by omega) (by omega)
  | case4 body result h1 h2 =>
    intro _ _
    rw [readLoop]
    · exact h1
    · exact h2

/-! ## Maps -/

theorem lookup_filter_self {V : Type} (m : List (String × V)) (k : String) :
    (m.filter (fun p => p.1 != k)).lookup k = none := by
  induction m with
  | nil => rfl
  | cons p m ih =>
    by_cases h : p.1 = k
    · simp [List.filter, h, ih]
    · have hb : (p.1 != k) = true := by simp [h]
      have hk : (k == p.1) = false := by simp; exact fun e => h e.symm
      simp only [List.filter, hb]
      rw [show p = (p.1, p.2) from rfl, List.lookup_cons, hk]
      exact ih

theorem lookup_filter_ne {V : Type} (m : List (String × V)) (k k' : String) (hne : k' ≠ k) :
    (m.filter (fun p => p.1 != k)).lookup k' = m.lookup k' := by
  induction m with
  | nil => rfl
  | cons p m ih =>
    obtain ⟨a, b⟩ := p
    by_cases h : a = k
    · have hk : (k' == a) = false := by simp; rw [h]; exact hne
      simp only [List.filter, h, bne_self_eq_false, List.lookup_cons]
      rw [← h, hk]
      rw [h]; exact ih
    · have hb : (a != k) = true := by simp [h]
      simp only [List.filter, hb, List.lookup_cons, ih]

theorem mapHas_mapDelete_self {V : Type} (m : List (String × V)) (k : String) :
    mapHas (mapDelete m k) k = false := by
  simp [mapHas, mapDelete, lookup_filter_self]

theorem mapGet_mapDelete_self {V : Type} (m : List (String × V)) (k : String) (z : V) :
    mapGet (mapDelete m k) k z = z := by
  simp [mapGet, mapDelete, lookup_filter_self]

theorem mapHas_mapDelete_ne {V : Type} (m : List (String × V)) (k k' : String) (h : k' ≠ k) :
    mapHas (mapDelete m k) k' = mapHas m k' := by
  simp [mapHas, mapDelete, lookup_filter_ne m k k' h]

theorem mapGet_mapDelete_ne {V : Type} (m : List (String × V)) (k k' : String) (z : V)
    (h : k' ≠ k) : mapGet (mapDelete m k) k' z = mapGet m k' z := by
  simp [mapGet, mapDelete, lookup_filter_ne m k k' h]

theorem mapGet_mapSet_self {V : Type} (m : List (String × V)) (k : String) (v z : V) :
    mapGet (mapSet m k v) k z = v := by
  simp [mapGet, mapSet, List.lookup_cons]

theorem mapHas_mapSet_self {V : Type} (m : List (String × V)) (k : String) (v : V) :
    mapHas (mapSet m k v) k = true := by
  simp [mapHas, mapSet, List.lookup_cons]

theorem mapGet_mapSet_ne {V : Type} (m : List (String × V)) (k k' : String) (v z : V)
    (h : k' ≠ k) : mapGet (mapSet m k v) k' z = mapGet m k' z := by
  have hk : (k' == k) = false := by simp [h]
  simp only [mapGet, mapSet, List.lookup_cons, hk]
  rw [show mapDelete m k = m.filter (fun p => p.1 != k) from rfl, lookup_filter_ne m k k' h]

theorem mapHas_mapSet_ne {V : Type} (m : List (String × V)) (k k' : String) (v : V)
    (h : k' ≠ k) : mapHas (mapSet m k v) k' = mapHas m k' := by
  have hk : (k' == k) = false := by simp [h]
  simp only [mapHas, mapSet, List.lookup_cons, hk]
  rw [show mapDelete m k = m.filter (fun p => p.1 != k) from rfl, lookup_filter_ne m k k' h]

/-- A key the map lacks reads as the zero value. -/
theorem mapGet_of_not_has {V : Type} (m : List (String × V)) (k : String) (z : V)
    (h : mapHas m k = false) : mapGet m k z = z := by
  unfold mapHas at h
  unfold mapGet
  cases hl : m.lookup k with
  | none => rfl
  | some v => rw [hl] at h; simp at h

/-! ## Mask bytes -/

/-- The inner loop keeps the mask a byte. -/
theorem maskLoop_lt (needles haystack : List Nat) (k i mask : Nat) (hk : k ≤ 8)
    (hm : mask < 256) : (maskLoop needles haystack k i mask).2 < 256 := by
  have h : (maskLoop needles haystack k i mask).2 < 2 ^ 8 := by
    apply Nat.lt_pow_two_of_testBit
    intro p hp
    rw [maskLoop_snd]
    have h1 : mask.testBit p = false :=
      Nat.testBit_lt_two_pow (lt_of_lt_of_le hm (Nat.pow_le_pow_right (show 0 < 2 by decide) hp))
    have h2 : ¬ p < k := by omega
    simp [h1, h2]
  exact h

/-- The outer loop appends bytes only. -/
theorem outLoop_lt (needles haystack : List Nat) :
    ∀ (fuel i : Nat) (out : List Nat), (∀ b ∈ out, b < 256) →
      ∀ b ∈ outLoop needles haystack fuel i out, b < 256 := by
  intro fuel
  induction fuel with
  | zero => intro i out h; simpa [outLoop] using h
  | succ n ih =>
    intro i out h
    unfold outLoop
    by_cases hlt : i < needles.length
    · simp only [hlt, if_true]
      apply ih
      intro b hb
      rcases List.mem_append.mp hb with hb | hb
      · exact h b hb
      · rw [List.mem_singleton.mp hb]
        exact maskLoop_lt needles haystack 8 i 0 le_rfl (by decide)
    · simpa [hlt] using h

/-! ## Sorting -/

theorem sortHashes_sorted (l : List Nat) : (sortHashes l).Sorted (· ≤ ·) :=
  List.sorted_insertionSort _ l

theorem sortHashes_perm (l : List Nat) : (sortHashes l).Perm l :=
  List.perm_insertionSort _ l

theorem mem_sortHashes (l : List Nat) (x : Nat) : x ∈ sortHashes l ↔ x ∈ l :=
  (sortHashes_perm l).mem_iff

theorem length_sortHashes (l : List Nat) : (sortHashes l).length = l.length :=
  (sortHashes_perm l).length_eq

/-! ## Eviction -/

theorem rangeSize_le (uploads : List (String × List Nat)) (iter : List String)
    (h : ∀ k, (mapGet uploads k []).length ≤ maxTotalHashes) :
    rangeSize uploads iter ≤ (maxTotalHashes : Int) := by
  unfold rangeSize
  have gen : ∀ (l : List String) (init : Int), init ≤ (maxTotalHashes : Int) →
      l.foldl (fun _ k => ((mapGet uploads k []).length : Int)) init
        ≤ (maxTotalHashes : Int) := by
    intro l
    induction l with
    | nil => intro init hi; simpa using hi
    | cons k l ih =>
      intro init _
      simp only [List.foldl_cons]
      exact ih _ (by exact_mod_cast h k)
  exact gen iter 0 (by simp [maxTotalHashes])

theorem evictLoop_noop (size : Int) (uploads : List (String × List Nat))
    (history : List String) (h : size ≤ (maxTotalHashes : Int)) :
    evictLoop size uploads history = (uploads, history) := by
  cases history with
  | nil => rfl
  | cons a l =>
    have : ¬ size > (maxTotalHashes : Int) := by omega
    simp [evictLoop, this]

/-- While no single upload is longer than the cap, `cleanOldUploads` removes
nothing. -/
theorem cleanOldUploads_noop (s : Store) (iter : List String)
    (h : ∀ k, (mapGet s.uploads k []).length ≤ maxTotalHashes) :
    cleanOldUploads s iter = s := by
  unfold cleanOldUploads
  rw [evictLoop_noop _ _ _ (rangeSize_le s.uploads iter h)]

/-! ## Handlers -/

theorem unlock_lock (s : Store) (h : s.uploadLock = false) :
    unlock { s with uploadLock := true } = s := by
  cases s
  simp only [unlock] at *
  simp [h]

/-- A deposit that passes every check: the name is new, the body decodes and
no stored upload is longer than the cap. -/
theorem handleUpload_ok (s : Store) (name : String) (body : List Nat) (iter : List String)
    (upload : List Nat) (hl : s.uploadLock = false) (hn : mapHas s.uploads name = false)
    (hr : readUint64s body = (upload, none))
    (hs : ∀ k, (mapGet (mapSet s.uploads name (sortHashes upload)) k []).length
      ≤ maxTotalHashes) :
    handleUpload s ⟨"PUT", [name], body⟩ iter =
      some (Response.noContent,
        { s with uploads := mapSet s.uploads name (sortHashes upload),
                 uploadHistory := s.uploadHistory ++ [name],
                 timers := s.timers ++ [name] }) := by
  unfold handleUpload
  simp only [ne_eq, not_true, if_false, List.length_singleton, lock, hl, Bool.false_eq_true,
    List.headD_cons, hn, unlock, hr]
  rw [cleanOldUploads_noop _ iter hs]

/-- A query against a non-empty upload whose body decodes: the count grows by
the number of needles, and the budget decides between the mask and the
penalty. -/
theorem handleMatch_read (s : Store) (name : String) (body needles : List Nat)
    (hl : s.uploadLock = false) (hu : mapGet s.uploads name [] ≠ [])
    (hr : readUint64s body = (needles, none)) :
    handleMatch s ⟨"PUT", [name], body⟩ =
      if mapGet s.uploadMatchCounts name 0 + needles.length > maxMatchesPerUpload then
        some (Response.error Failure.tooManyMatches,
          { s with uploadMatchCounts := mapSet s.uploadMatchCounts name
                     (mapGet s.uploadMatchCounts name 0 + needles.length),
                   uploads := mapDelete s.uploads name })
      else
        some (Response.ok (findHashes needles (mapGet s.uploads name [])),
          { s with uploadMatchCounts := mapSet s.uploadMatchCounts name
                     (mapGet s.uploadMatchCounts name 0 + needles.length) }) := by
  have hlen : ¬ (mapGet s.uploads name []).length = 0 := by
    intro h; exact hu (List.length_eq_zero.mp h)
  unfold handleMatch
  simp only [ne_eq, not_true, if_false, List.length_singleton, lock, hl, Bool.false_eq_true,
    List.headD_cons, unlock, hr, hlen]

/-- A query under a name the map lacks: "upload missing", nothing changes. -/
theorem handleMatch_missing (s : Store) (name : String) (body : List Nat)
    (hl : s.uploadLock = false) (hn : mapHas s.uploads name = false) :
    handleMatch s ⟨"PUT", [name], body⟩ = some (Response.error Failure.uploadMissing, s) := by
  unfold handleMatch
  simp only [ne_eq, not_true, if_false, List.length_singleton, lock, hl, Bool.false_eq_true,
    List.headD_cons, mapGet_of_not_has _ _ _ hn, List.length_nil, if_true]
  rw [unlock_lock s hl]

/-- The expiry callback, when it gets the lock, deletes the name from the map
and nothing else. -/
theorem expire_ok (s : Store) (name : String) (hl : s.uploadLock = false) :
    expire s name = some { s with uploads := mapDelete s.uploads name } := by
  cases s
  simp only [expire, lock, unlock] at *
  simp [hl]

/-- The eviction loop adds no key to the map. -/
theorem evictLoop_keeps_absent (k : String) :
    ∀ (history : List String) (size : Int) (uploads : List (String × List Nat)),
      mapHas uploads k = false → mapHas (evictLoop size uploads history).1 k = false := by
  intro history
  induction history with
  | nil => intro size uploads h; simpa [evictLoop] using h
  | cons oldest rest ih =>
    intro size uploads h
    unfold evictLoop
    by_cases hs : size > (maxTotalHashes : Int)
    · simp only [hs, if_true]
      apply ih
      by_cases hk : k = oldest
      · rw [hk]; exact mapHas_mapDelete_self _ _
      · rw [mapHas_mapDelete_ne _ _ _ hk]; exact h
    · simpa [hs] using h

/-- A name the eviction loop popped from the ledger is gone from the map. -/
theorem evictLoop_popped (k : String) :
    ∀ (history : List String) (size : Int) (uploads : List (String × List Nat)),
      k ∈ history → k ∉ (evictLoop size uploads history).2 →
      mapHas (evictLoop size uploads history).1 k = false := by
  intro history
  induction history with
  | nil => intro size uploads h; simp at h
  | cons oldest rest ih =>
    intro size uploads hin hout
    unfold evictLoop at hout ⊢
    by_cases hs : size > (maxTotalHashes : Int)
    · simp only [hs, if_true] at hout ⊢
      by_cases hk : k = oldest
      · apply evictLoop_keeps_absent
        rw [hk]; exact mapHas_mapDelete_self _ _
      · rcases List.mem_cons.mp hin with h1 | h1
        · exact absurd h1 hk
        · exact ih _ _ h1 hout
    · simp only [hs, if_false] at hout
      exact absurd hin hout

/-- A query that finds the lock held blocks. -/
theorem handleMatch_blocked (s : Store) (name : String) (body : List Nat)
    (hl : s.uploadLock = true) : handleMatch s ⟨"PUT", [name], body⟩ = none := by
  unfold handleMatch
  simp [lock, hl]

/-- A query under a name whose map entry reads as the nil slice: "upload
missing", nothing changes. -/
theorem handleMatch_nil (s : Store) (name : String) (body : List Nat)
    (hl : s.uploadLock = false) (hn : mapGet s.uploads name [] = []) :
    handleMatch s ⟨"PUT", [name], body⟩ = some (Response.error Failure.uploadMissing, s) := by
  unfold handleMatch
  simp only [ne_eq, not_true, if_false, List.length_singleton, lock, hl, Bool.false_eq_true,
    List.headD_cons, hn, List.length_nil, if_true]
  rw [unlock_lock s hl]

/-- A query against a non-empty upload whose body does not decode: the read
error, nothing changes. -/
theorem handleMatch_read_err (s : Store) (name : String) (body got : List Nat)
    (err : ReadError) (hl : s.uploadLock = false) (hu : mapGet s.uploads name [] ≠ [])
    (hr : readUint64s body = (got, some err)) :
    handleMatch s ⟨"PUT", [name], body⟩
      = some (Response.error (Failure.reading err), s) := by
  have hlen : ¬ (mapGet s.uploads name []).length = 0 := by
    intro h; exact hu (List.length_eq_zero.mp h)
  unfold handleMatch
  simp only [ne_eq, not_true, if_false, List.length_singleton, lock, hl, Bool.false_eq_true,
    List.headD_cons, hr, hlen]
  rw [unlock_lock s hl]

/-- The budget penalty leaves the name out of the map and the lock free. -/
theorem handleMatch_penalty (s s1 : Store) (name : String) (body : List Nat)
    (h : handleMatch s ⟨"PUT", [name], body⟩
      = some (Response.error Failure.tooManyMatches, s1)) :
    mapHas s1.uploads name = false ∧ s1.uploadLock = false := by
  cases hl : s.uploadLock with
  | true => rw [handleMatch_blocked s name body hl] at h; simp at h
  | false =>
    by_cases hn : mapGet s.uploads name [] = []
    · rw [handleMatch_nil s name body hl hn] at h; simp at h
    · rcases hr : readUint64s body with ⟨needles, _ | err⟩
      · rw [handleMatch_read s name body needles hl hn hr] at h
        split at h
        · simp only [Option.some.injEq, Prod.mk.injEq, true_and] at h
          rw [← h]
          exact ⟨mapHas_mapDelete_self _ _, hl⟩
        · simp at h
      · rw [handleMatch_read_err s name body needles err hl hn hr] at h; simp at h

/-- A deposit that finds the lock held blocks. -/
theorem handleUpload_blocked (s : Store) (name : String) (body : List Nat)
    (iter : List String) (hl : s.uploadLock = true) :
    handleUpload s ⟨"PUT", [name], body⟩ iter = none := by
  unfold handleUpload
  simp [lock, hl]

/-- A deposit under a name the map holds: "that name's taken", and the lock
stays held. -/
theorem handleUpload_taken (s : Store) (name : String) (body : List Nat)
    (iter : List String) (hl : s.uploadLock = false) (hn : mapHas s.uploads name = true) :
    handleUpload s ⟨"PUT", [name], body⟩ iter
      = some (Response.error Failure.nameTaken, { s with uploadLock := true }) := by
  unfold handleUpload
  simp only [ne_eq, not_true, if_false, List.length_singleton, lock, hl, Bool.false_eq_true,
    List.headD_cons, hn, if_true]

/-- A deposit under a new name whose body does not decode: the read error,
nothing changes. -/
theorem handleUpload_read_err (s : Store) (name : String) (body got : List Nat)
    (iter : List String) (err : ReadError) (hl : s.uploadLock = false)
    (hn : mapHas s.uploads name = false) (hr : readUint64s body = (got, some err)) :
    handleUpload s ⟨"PUT", [name], body⟩ iter
      = some (Response.error (Failure.reading err), s) := by
  unfold handleUpload
  simp only [ne_eq, not_true, if_false, List.length_singleton, lock, hl, Bool.false_eq_true,
    List.headD_cons, hn, hr]
  rw [unlock_lock s hl]

/-- A deposit under a new name whose body decodes: sorted, stored, appended to
the ledger, eviction run, and the expiry callback armed. -/
theorem handleUpload_read (s : Store) (name : String) (body upload : List Nat)
    (iter : List String) (hl : s.uploadLock = false)
    (hn : mapHas s.uploads name = false) (hr : readUint64s body = (upload, none)) :
    handleUpload s ⟨"PUT", [name], body⟩ iter
      = some (Response.noContent,
          { cleanOldUploads
              { s with uploads := mapSet s.uploads name (sortHashes upload),
                       uploadHistory := s.uploadHistory ++ [name] } iter
            with timers := s.timers ++ [name] }) := by
  unfold handleUpload
  simp only [ne_eq, not_true, if_false, List.length_singleton, lock, hl, Bool.false_eq_true,
    List.headD_cons, hn, unlock, hr]
  simp [cleanOldUploads, hl]

/-- A request with the `PUT` method and one `name` value. -/
theorem request_shape (r : Request) (hm : r.method = "PUT") (hn : r.nameList.length = 1) :
    ∃ name, r = ⟨"PUT", [name], r.body⟩ := by
  obtain ⟨name, hname⟩ := List.length_eq_one.mp hn
  refine ⟨name, ?_⟩
  cases r
  simp only at hm hname
  rw [hm, hname]

/-- From the empty store: a deposit of a non-empty sequence under the ceiling,
then a query under the ceiling, with the states and the mask spelled out. -/
theorem deposit_then_query (name : String) (U N : List Nat) (iter : List String)
    (hU : U ≠ []) (hUl : U.length ≤ maxHashes) (hNl : N.length ≤ maxHashes)
    (hUb : ∀ x ∈ U, x < 2 ^ 64) (hNb : ∀ x ∈ N, x < 2 ^ 64) :
    handleUpload Store.empty ⟨"PUT", [name], encodeHashes U⟩ iter
      = some (Response.noContent,
          { Store.empty with uploads := [(name, sortHashes U)], uploadHistory := [name],
                             timers := [name] }) ∧
    handleMatch
        { Store.empty with uploads := [(name, sortHashes U)], uploadHistory := [name],
                           timers := [name] }
        ⟨"PUT", [name], encodeHashes N⟩
      = some (Response.ok (findHashes N (sortHashes U)),
          { Store.empty with uploads := [(name, sortHashes U)], uploadHistory := [name],
                             timers := [name], uploadMatchCounts := [(name, N.length)] }) := by
  have hrU : readUint64s (encodeHashes U) = (U, none) := by
    unfold readUint64s
    rw [readLoop_encode U [] hUb (by simpa using hUl)]
    simp
  have hrN : readUint64s (encodeHashes N) = (N, none) := by
    unfold readUint64s
    rw [readLoop_encode N [] hNb (by simpa using hNl)]
    simp
  constructor
  · have h := handleUpload_ok Store.empty name (encodeHashes U) iter U rfl rfl hrU (by
      intro k
      by_cases hk : k = name
      · rw [hk, mapGet_mapSet_self, length_sortHashes]
        exact hUl
      · rw [mapGet_mapSet_ne _ _ _ _ _ hk]
        simp [Store.empty, mapGet])
    rw [h]
    rfl
  · have hg : mapGet [(name, sortHashes U)] name ([] : List Nat) = sortHashes U := by
      simp [mapGet, List.lookup_cons]
    have h := handleMatch_read
      { Store.empty with uploads := [(name, sortHashes U)], uploadHistory := [name],
                         timers := [name] } name (encodeHashes N) N rfl (by
        show mapGet [(name, sortHashes U)] name [] ≠ []
        rw [hg]
        intro hc
        have := length_sortHashes U
        rw [hc] at this
        exact hU (List.length_eq_zero.mp this.symm)) hrN
    rw [h]
    have hc : ¬ mapGet (Store.empty).uploadMatchCounts name 0 + N.length
        > maxMatchesPerUpload := by
      simp only [Store.empty, mapGet, List.lookup_nil, Option.getD_none]
      simp only [maxHashes] at hNl
      simp only [maxMatchesPerUpload]
      omega
    simp only [hc, if_false]
    simp only [hg]
    simp [Store.empty, mapGet, mapSet, mapDelete]

/-- Decoding an encoded sequence of 64-bit values under the ceiling. -/
theorem readUint64s_encode (xs : List Nat) (hb : ∀ x ∈ xs, x < 2 ^ 64)
    (hl : xs.length ≤ maxHashes) : readUint64s (encodeHashes xs) = (xs, none) := by
  unfold readUint64s
  rw [readLoop_encode xs [] hb (by simpa using hl)]
  simp

/-- Decoding a stream with more complete records than the ceiling. -/
theorem readUint64s_tooMany (body : List Nat) (h : body.length / 8 > maxHashes) :
    readUint64s body = ([], some ReadError.tooManyHashes) := by
  unfold readUint64s
  exact (readLoop_err_iff body [] (Nat.zero_le _)).2 (by simpa using h)

theorem mapGet_singleton_length_le (k name : String) (u : List Nat) (n : Nat)
    (h : u.length ≤ n) : (mapGet [(name, u)] k []).length ≤ n := by
  unfold mapGet
  rw [List.lookup_cons]
  cases k == name with
  | true => simpa using h
  | false => simp

/-- From the empty store: two deposits under different names, each under the
per-request ceiling.  Both are kept, whatever their total. -/
theorem two_deposits (na nb : String) (hne : na ≠ nb) (U V : List Nat)
    (iter1 iter2 : List String) (hU : U.length ≤ maxHashes) (hV : V.length ≤ maxHashes)
    (hUb : ∀ x ∈ U, x < 2 ^ 64) (hVb : ∀ x ∈ V, x < 2 ^ 64) :
    handleUpload Store.empty ⟨"PUT", [na], encodeHashes U⟩ iter1
      = some (Response.noContent, ⟨[(na, sortHashes U)], [], [na], false, [na]⟩) ∧
    handleUpload ⟨[(na, sortHashes U)], [], [na], false, [na]⟩
        ⟨"PUT", [nb], encodeHashes V⟩ iter2
      = some (Response.noContent,
          ⟨[(nb, sortHashes V), (na, sortHashes U)], [], [na, nb], false, [na, nb]⟩) := by
  have hsU : (sortHashes U).length ≤ maxTotalHashes := by
    rw [length_sortHashes]; exact hU
  have hsV : (sortHashes V).length ≤ maxTotalHashes := by
    rw [length_sortHashes]; exact hV
  constructor
  · rw [handleUpload_ok Store.empty na (encodeHashes U) iter1 U rfl rfl
      (readUint64s_encode U hUb hU) (by
        intro k
        exact mapGet_singleton_length_le k na _ _ hsU)]
    rfl
  · have hab : (na != nb) = true := by simp [hne]
    have hset : mapSet [(na, sortHashes U)] nb (sortHashes V)
        = [(nb, sortHashes V), (na, sortHashes U)] := by
      simp only [mapSet, mapDelete, List.filter, hab]
    have hhas : mapHas [(na, sortHashes U)] nb = false := by
      have : (nb == na) = false := by simp; exact fun e => hne e.symm
      simp [mapHas, List.lookup_cons, this]
    rw [handleUpload_ok ⟨[(na, sortHashes U)], [], [na], false, [na]⟩ nb (encodeHashes V)
      iter2 V rfl hhas (readUint64s_encode V hVb hV) (by
        intro k
        show (mapGet (mapSet [(na, sortHashes U)] nb (sortHashes V)) k []).length
          ≤ maxTotalHashes
        by_cases hk : k = nb
        · rw [hk, mapGet_mapSet_self]; exact hsV
        · rw [mapGet_mapSet_ne _ _ _ _ _ hk]
          exact mapGet_singleton_length_le k na _ _ hsU)]
    show some (Response.noContent,
      (⟨mapSet [(na, sortHashes U)] nb (sortHashes V), [], [na] ++ [nb], false,
        [na] ++ [nb]⟩ : Store)) = _
    rw [hset]
    rfl

theorem sortHashes_replicate (n v : Nat) :
    sortHashes (List.replicate n v) = List.replicate n v :=
  List.perm_replicate.mp (sortHashes_perm _)

/-- A deposit answered with an error leaves the map, the ledger, the counts
and the armed callbacks as they were. -/
theorem handleUpload_error_unchanged (s : Store) (r : Request) (iter : List String)
    (e : Failure) (s' : Store) (h : handleUpload s r iter = some (Response.error e, s')) :
    s'.uploads = s.uploads ∧ s'.uploadHistory = s.uploadHistory ∧
    s'.uploadMatchCounts = s.uploadMatchCounts ∧ s'.timers = s.timers := by
  by_cases hm : r.method = "PUT"
  · by_cases hn : r.nameList.length = 1
    · obtain ⟨name, hr⟩ := request_shape r hm hn
      rw [hr] at h
      cases hl : s.uploadLock with
      | true => rw [handleUpload_blocked s name _ iter hl] at h; simp at h
      | false =>
        cases hhas : mapHas s.uploads name with
        | true =>
          rw [handleUpload_taken s name _ iter hl hhas] at h
          simp only [Option.some.injEq, Prod.mk.injEq] at h
          rw [← h.2]
          exact ⟨rfl, rfl, rfl, rfl⟩
        | false =>
          rcases hrd : readUint64s r.body with ⟨upload, _ | err⟩
          · rw [handleUpload_read s name _ upload iter hl hhas hrd] at h
            simp at h
          · rw [handleUpload_read_err s name _ upload iter err hl hhas hrd] at h
            simp only [Option.some.injEq, Prod.mk.injEq] at h
            rw [← h.2]
            exact ⟨rfl, rfl, rfl, rfl⟩
    · unfold handleUpload at h
      simp only [ne_eq, hm, not_true, if_false, hn, not_false_eq_true, if_true,
        Option.some.injEq, Prod.mk.injEq] at h
      rw [← h.2]
      exact ⟨rfl, rfl, rfl, rfl⟩
  · unfold handleUpload at h
    simp only [ne_eq, hm, not_false_eq_true, if_true, Option.some.injEq, Prod.mk.injEq] at h
    simp at h

/-- A deposit without exactly one `name` value: "need a name arg". -/
theorem handleUpload_needName (s : Store) (r : Request) (iter : List String)
    (hm : r.method = "PUT") (hn : r.nameList.length ≠ 1) :
    handleUpload s r iter = some (Response.error Failure.needName, s) := by
  unfold handleUpload
  simp [hm, hn]

/-! ## Ledger, lock and counts along the handlers -/

/-- What a query leaves behind: the ledger and the armed callbacks as they
were, and the lock free if it was free. -/
theorem handleMatch_frame (s : Store) (r : Request) (p : Response × Store)
    (h : handleMatch s r = some p) :
    p.2.uploadHistory = s.uploadHistory ∧ p.2.timers = s.timers ∧
    (s.uploadLock = false → p.2.uploadLock = false) := by
  by_cases hm : r.method = "PUT"
  · by_cases hn : r.nameList.length = 1
    · obtain ⟨name, hr⟩ := request_shape r hm hn
      rw [hr] at h
      cases hl : s.uploadLock with
      | true => rw [handleMatch_blocked s name _ hl] at h; simp at h
      | false =>
        by_cases hnil : mapGet s.uploads name [] = []
        · rw [handleMatch_nil s name _ hl hnil] at h
          simp only [Option.some.injEq] at h
          rw [← h]; exact ⟨rfl, rfl, fun _ => hl⟩
        · rcases hrd : readUint64s r.body with ⟨needles, _ | err⟩
          · rw [handleMatch_read s name _ needles hl hnil hrd] at h
            split at h
            · simp only [Option.some.injEq] at h
              rw [← h]; exact ⟨rfl, rfl, fun _ => hl⟩
            · simp only [Option.some.injEq] at h
              rw [← h]; exact ⟨rfl, rfl, fun _ => hl⟩
          · rw [handleMatch_read_err s name _ needles err hl hnil hrd] at h
            simp only [Option.some.injEq] at h
            rw [← h]; exact ⟨rfl, rfl, fun _ => hl⟩
    · unfold handleMatch at h
      simp only [ne_eq, hm, not_true, if_false, hn, not_false_eq_true, if_true,
        Option.some.injEq] at h
      rw [← h]; exact ⟨rfl, rfl, fun h' => h'⟩
  · unfold handleMatch at h
    simp only [ne_eq, hm, not_false_eq_true, if_true, Option.some.injEq] at h
    rw [← h]; exact ⟨rfl, rfl, fun h' => h'⟩

/-- A deposit that found the lock free returns with the lock free on every
path but the name-taken one. -/
theorem handleUpload_unlocks (s : Store) (r : Request) (iter : List String)
    (p : Response × Store) (hl : s.uploadLock = false) (h : handleUpload s r iter = some p)
    (hne : p.1 ≠ Response.error Failure.nameTaken) : p.2.uploadLock = false := by
  by_cases hm : r.method = "PUT"
  · by_cases hn : r.nameList.length = 1
    · obtain ⟨name, hr⟩ := request_shape r hm hn
      rw [hr] at h
      cases hhas : mapHas s.uploads name with
      | true =>
        rw [handleUpload_taken s name _ iter hl hhas] at h
        simp only [Option.some.injEq] at h
        rw [← h] at hne
        exact absurd rfl hne
      | false =>
        rcases hrd : readUint64s r.body with ⟨upload, _ | err⟩
        · rw [handleUpload_read s name _ upload iter hl hhas hrd] at h
          simp only [Option.some.injEq] at h
          rw [← h]
          exact hl
        · rw [handleUpload_read_err s name _ upload iter err hl hhas hrd] at h
          simp only [Option.some.injEq] at h
          rw [← h]; exact hl
    · unfold handleUpload at h
      simp only [ne_eq, hm, not_true, if_false, hn, not_false_eq_true, if_true,
        Option.some.injEq] at h
      rw [← h]; exact hl
  · unfold handleUpload at h
    simp only [ne_eq, hm, not_false_eq_true, if_true, Option.some.injEq] at h
    rw [← h]; exact hl

/-- Whatever `readUint64s` returns has at most `maxHashes` entries. -/
theorem readLoop_length_le : ∀ (body result : List Nat), result.length ≤ maxHashes →
    (readLoop body result).1.length ≤ maxHashes := by
  intro body result
  induction body, result using readLoop.induct with
  | case1 result => intro h; simpa [readLoop] using h
  | case2 b0 b1 b2 b3 b4 b5 b6 b7 rest result hgt =>
    intro _
    simp only [readLoop, hgt, if_true, List.length_nil]
    exact Nat.zero_le _
  | case3 b0 b1 b2 b3 b4 b5 b6 b7 rest result hgt ih =>
    intro _
    simp only [readLoop, hgt, if_false]
    exact ih (by omega)
  | case4 body result h1 h2 =>
    intro h
    rw [readLoop]
    · exact h
    · exact h1
    · exact h2

theorem readUint64s_length_le (body upload : List Nat) (e : Option ReadError)
    (h : readUint64s body = (upload, e)) : upload.length ≤ maxHashes := by
  have := readLoop_length_le body [] (Nat.zero_le _)
  unfold readUint64s at h
  rw [h] at this
  exact this

/-- Deleting a key keeps every stored length under a bound. -/
theorem mapDelete_bounded (m : List (String × List Nat)) (k : String) (n : Nat)
    (h : ∀ k', (mapGet m k' []).length ≤ n) :
    ∀ k', (mapGet (mapDelete m k) k' []).length ≤ n := by
  intro k'
  by_cases hk : k' = k
  · rw [hk, mapGet_mapDelete_self]; exact Nat.zero_le _
  · rw [mapGet_mapDelete_ne _ _ _ _ hk]; exact h k'

/-- Setting a key to a value under the bound keeps every stored length under
it. -/
theorem mapSet_bounded (m : List (String × List Nat)) (k : String) (v : List Nat) (n : Nat)
    (h : ∀ k', (mapGet m k' []).length ≤ n) (hv : v.length ≤ n) :
    ∀ k', (mapGet (mapSet m k v) k' []).length ≤ n := by
  intro k'
  by_cases hk : k' = k
  · rw [hk, mapGet_mapSet_self]; exact hv
  · rw [mapGet_mapSet_ne _ _ _ _ _ hk]; exact h k'

/-- What a deposit that is accepted does to a store none of whose uploads is
longer than the cap: the eviction changes nothing. -/
theorem handleUpload_read_bounded (s : Store) (name : String) (body upload : List Nat)
    (iter : List String) (hl : s.uploadLock = false) (hn : mapHas s.uploads name = false)
    (hr : readUint64s body = (upload, none))
    (hb : ∀ k, (mapGet s.uploads k []).length ≤ maxHashes) :
    handleUpload s ⟨"PUT", [name], body⟩ iter =
      some (Response.noContent,
        { s with uploads := mapSet s.uploads name (sortHashes upload),
                 uploadHistory := s.uploadHistory ++ [name],
                 timers := s.timers ++ [name] }) :=
  handleUpload_ok s name body iter upload hl hn hr
    (mapSet_bounded s.uploads name _ _ hb (by
      rw [length_sortHashes]; exact readUint64s_length_le body upload none hr))

/-- No event stores an upload longer than the per-request ceiling. -/
theorem step_bounded (s : Store) (e : Event)
    (hb : ∀ k, (mapGet s.uploads k []).length ≤ maxHashes) :
    ∀ k, (mapGet (step s e).uploads k []).length ≤ maxHashes := by
  cases e with
  | upload r iter =>
    simp only [step]
    cases h : handleUpload s r iter with
    | none => exact hb
    | some p =>
      simp only
      by_cases hm : r.method = "PUT"
      · by_cases hn : r.nameList.length = 1
        · obtain ⟨name, hr⟩ := request_shape r hm hn
          rw [hr] at h
          cases hl : s.uploadLock with
          | true => rw [handleUpload_blocked s name _ iter hl] at h; simp at h
          | false =>
            cases hhas : mapHas s.uploads name with
            | true =>
              rw [handleUpload_taken s name _ iter hl hhas] at h
              simp only [Option.some.injEq] at h
              rw [← h]; exact hb
            | false =>
              rcases hrd : readUint64s r.body with ⟨upload, _ | err⟩
              · rw [handleUpload_read_bounded s name _ upload iter hl hhas hrd hb] at h
                simp only [Option.some.injEq] at h
                rw [← h]
                exact mapSet_bounded s.uploads name _ _ hb (by
                  rw [length_sortHashes]; exact readUint64s_length_le _ upload none hrd)
              · rw [handleUpload_read_err s name _ upload iter err hl hhas hrd] at h
                simp only [Option.some.injEq] at h
                rw [← h]; exact hb
        · unfold handleUpload at h
          simp only [ne_eq, hm, not_true, if_false, hn, not_false_eq_true, if_true,
            Option.some.injEq] at h
          rw [← h]; exact hb
      · unfold handleUpload at h
        simp only [ne_eq, hm, not_false_eq_true, if_true, Option.some.injEq] at h
        rw [← h]; exact hb
  | query r =>
    simp only [step]
    cases h : handleMatch s r with
    | none => exact hb
    | some p =>
      simp only
      by_cases hm : r.method = "PUT"
      · by_cases hn : r.nameList.length = 1
        · obtain ⟨name, hr⟩ := request_shape r hm hn
          rw [hr] at h
          cases hl : s.uploadLock with
          | true => rw [handleMatch_blocked s name _ hl] at h; simp at h
          | false =>
            by_cases hnil : mapGet s.uploads name [] = []
            · rw [handleMatch_nil s name _ hl hnil] at h
              simp only [Option.some.injEq] at h
              rw [← h]; exact hb
            · rcases hrd : readUint64s r.body with ⟨needles, _ | err⟩
              · rw [handleMatch_read s name _ needles hl hnil hrd] at h
                split at h
                · simp only [Option.some.injEq] at h
                  rw [← h]; exact mapDelete_bounded _ _ _ hb
                · simp only [Option.some.injEq] at h
                  rw [← h]; exact hb
              · rw [handleMatch_read_err s name _ needles err hl hnil hrd] at h
                simp only [Option.some.injEq] at h
                rw [← h]; exact hb
        · unfold handleMatch at h
          simp only [ne_eq, hm, not_true, if_false, hn, not_false_eq_true, if_true,
            Option.some.injEq] at h
          rw [← h]; exact hb
      · unfold handleMatch at h
        simp only [ne_eq, hm, not_false_eq_true, if_true, Option.some.injEq] at h
        rw [← h]; exact hb
  | timer name =>
    simp only [step]
    by_cases hin : name ∈ s.timers
    · simp only [hin, if_true]
      cases hl : s.uploadLock with
      | true =>
        have : expire s name = none := by simp [expire, lock, hl]
        rw [this]; exact hb
      | false =>
        rw [expire_ok s name hl]
        exact mapDelete_bounded _ _ _ hb
    · simp only [hin, if_false]; exact hb

/-- In every state reached from a store whose uploads are within the
per-request ceiling, they still are. -/
theorem run_bounded : ∀ (events : List Event) (s : Store),
    (∀ k, (mapGet s.uploads k []).length ≤ maxHashes) →
    ∀ k, (mapGet (run s events).uploads k []).length ≤ maxHashes := by
  intro events
  induction events with
  | nil => intro s hb; exact hb
  | cons e es ih =>
    intro s hb
    show ∀ k, (mapGet (run (step s e) es).uploads k []).length ≤ maxHashes
    exact ih (step s e) (step_bounded s e hb)

theorem empty_bounded : ∀ k, (mapGet Store.empty.uploads k []).length ≤ maxHashes := by
  intro k
  simp [Store.empty, mapGet]

/-- The size the range loop leaves is 0 or the length of one upload. -/
theorem rangeSize_single (uploads : List (String × List Nat)) (iter : List String) :
    rangeSize uploads iter = 0 ∨
      ∃ k ∈ iter, rangeSize uploads iter = ((mapGet uploads k []).length : Int) := by
  unfold rangeSize
  have gen : ∀ (l : List String) (init : Int),
      l.foldl (fun _ k => ((mapGet uploads k []).length : Int)) init = init ∨
      ∃ k ∈ l, l.foldl (fun _ k => ((mapGet uploads k []).length : Int)) init
        = ((mapGet uploads k []).length : Int) := by
    intro l
    induction l with
    | nil => intro init; left; rfl
    | cons a l ih =>
      intro init
      simp only [List.foldl_cons]
      rcases ih ((mapGet uploads a []).length : Int) with h | ⟨k, hk, h⟩
      · right; exact ⟨a, List.mem_cons_self _ _, h⟩
      · right; exact ⟨k, List.mem_cons_of_mem _ hk, h⟩
  exact gen iter 0

/-! ## Where a stored upload comes from -/

theorem lookup_mapDelete {V : Type} (m : List (String × V)) (k name : String) (h : V)
    (hl : (mapDelete m k).lookup name = some h) : m.lookup name = some h := by
  unfold mapDelete at hl
  by_cases hk : name = k
  · rw [hk, lookup_filter_self] at hl
    exact absurd hl (by simp)
  · rw [lookup_filter_ne m k name hk] at hl
    exact hl

theorem lookup_mapSet {V : Type} (m : List (String × V)) (k name : String) (v h : V)
    (hl : (mapSet m k v).lookup name = some h) :
    (name = k ∧ h = v) ∨ m.lookup name = some h := by
  unfold mapSet at hl
  rw [List.lookup_cons] at hl
  by_cases hk : name = k
  · left
    have : (name == k) = true := by simp [hk]
    rw [this] at hl
    simp only [Option.some.injEq] at hl
    exact ⟨hk, hl.symm⟩
  · right
    have : (name == k) = false := by simp [hk]
    rw [this] at hl
    exact lookup_mapDelete m k name h hl

/-- An entry the eviction loop leaves in the map was there before. -/
theorem lookup_evictLoop (name : String) (h : List Nat) :
    ∀ (history : List String) (size : Int) (uploads : List (String × List Nat)),
      (evictLoop size uploads history).1.lookup name = some h →
      uploads.lookup name = some h := by
  intro history
  induction history with
  | nil => intro size uploads hl; simpa [evictLoop] using hl
  | cons oldest rest ih =>
    intro size uploads hl
    unfold evictLoop at hl
    by_cases hs : size > (maxTotalHashes : Int)
    · simp only [hs, if_true] at hl
      exact lookup_mapDelete uploads oldest name h (ih _ _ hl)
    · simp only [hs, if_false] at hl
      exact hl

/-- An entry of the map after an event was there before the event, or the
event is an accepted deposit under its name and the entry is the decoded
body, sorted. -/
theorem step_stored (s : Store) (e : Event) (name : String) (h : List Nat)
    (hl : (step s e).uploads.lookup name = some h) :
    s.uploads.lookup name = some h ∨
    ∃ r iter upload, e = Event.upload r iter ∧ r.method = "PUT" ∧ r.nameList = [name] ∧
      readUint64s r.body = (upload, none) ∧ h = sortHashes upload := by
  cases e with
  | upload r iter =>
    simp only [step] at hl
    cases hh : handleUpload s r iter with
    | none => rw [hh] at hl; left; exact hl
    | some p =>
      rw [hh] at hl
      simp only at hl
      by_cases hm : r.method = "PUT"
      · by_cases hn : r.nameList.length = 1
        · obtain ⟨nm, hr⟩ := request_shape r hm hn
          have hnl : r.nameList = [nm] := by rw [hr]
          rw [hr] at hh
          cases hlk : s.uploadLock with
          | true => rw [handleUpload_blocked s nm _ iter hlk] at hh; simp at hh
          | false =>
            cases hhas : mapHas s.uploads nm with
            | true =>
              rw [handleUpload_taken s nm _ iter hlk hhas] at hh
              simp only [Option.some.injEq] at hh
              rw [← hh] at hl
              left; exact hl
            | false =>
              rcases hrd : readUint64s r.body with ⟨upload, _ | err⟩
              · rw [handleUpload_read s nm _ upload iter hlk hhas hrd] at hh
                simp only [Option.some.injEq] at hh
                rw [← hh] at hl
                have h1 := lookup_evictLoop name h _ _ _ hl
                rcases lookup_mapSet s.uploads nm name _ h h1 with ⟨e1, e2⟩ | h2
                · right
                  refine ⟨r, iter, upload, rfl, hm, ?_, hrd, e2⟩
                  rw [hnl, e1]
                · left; exact h2
              · rw [handleUpload_read_err s nm _ upload iter err hlk hhas hrd] at hh
                simp only [Option.some.injEq] at hh
                rw [← hh] at hl
                left; exact hl
        · unfold handleUpload at hh
          simp only [ne_eq, hm, not_true, if_false, hn, not_false_eq_true, if_true,
            Option.some.injEq] at hh
          rw [← hh] at hl
          left; exact hl
      · unfold handleUpload at hh
        simp only [ne_eq, hm, not_false_eq_true, if_true, Option.some.injEq] at hh
        rw [← hh] at hl
        left; exact hl
  | query r =>
    left
    simp only [step] at hl
    cases hh : handleMatch s r with
    | none => rw [hh] at hl; exact hl
    | some p =>
      rw [hh] at hl
      simp only at hl
      by_cases hm : r.method = "PUT"
      · by_cases hn : r.nameList.length = 1
        · obtain ⟨nm, hr⟩ := request_shape r hm hn
          rw [hr] at hh
          cases hlk : s.uploadLock with
          | true => rw [handleMatch_blocked s nm _ hlk] at hh; simp at hh
          | false =>
            by_cases hnil : mapGet s.uploads nm [] = []
            · rw [handleMatch_nil s nm _ hlk hnil] at hh
              simp only [Option.some.injEq] at hh
              rw [← hh] at hl; exact hl
            · rcases hrd : readUint64s r.body with ⟨needles, _ | err⟩
              · rw [handleMatch_read s nm _ needles hlk hnil hrd] at hh
                split at hh
                · simp only [Option.some.injEq] at hh
                  rw [← hh] at hl
                  exact lookup_mapDelete _ _ _ _ hl
                · simp only [Option.some.injEq] at hh
                  rw [← hh] at hl; exact hl
              · rw [handleMatch_read_err s nm _ needles err hlk hnil hrd] at hh
                simp only [Option.some.injEq] at hh
                rw [← hh] at hl; exact hl
        · unfold handleMatch at hh
          simp only [ne_eq, hm, not_true, if_false, hn, not_false_eq_true, if_true,
            Option.some.injEq] at hh
          rw [← hh] at hl; exact hl
      · unfold handleMatch at hh
        simp only [ne_eq, hm, not_false_eq_true, if_true, Option.some.injEq] at hh
        rw [← hh] at hl; exact hl
  | timer nm =>
    left
    simp only [step] at hl
    by_cases hin : nm ∈ s.timers
    · simp only [hin, if_true] at hl
      cases hlk : s.uploadLock with
      | true =>
        have : expire s nm = none := by simp [expire, lock, hlk]
        rw [this] at hl; exact hl
      | false =>
        rw [expire_ok s nm hlk] at hl
        exact lookup_mapDelete _ _ _ _ hl
    · simp only [hin, if_false] at hl; exact hl

/-- An entry of the map after a run was there at the start, or it is the
sorted decoded body of a deposit of the run under its name. -/
theorem run_stored (name : String) (h : List Nat) :
    ∀ (events : List Event) (s : Store), (run s events).uploads.lookup name = some h →
      s.uploads.lookup name = some h ∨
      ∃ r iter upload, Event.upload r iter ∈ events ∧ r.method = "PUT" ∧
        r.nameList = [name] ∧ readUint64s r.body = (upload, none) ∧
        h = sortHashes upload := by
  intro events
  induction events with
  | nil => intro s hl; left; exact hl
  | cons e es ih =>
    intro s hl
    have hl' : (run (step s e) es).uploads.lookup name = some h := hl
    rcases ih (step s e) hl' with h1 | ⟨r, iter, upload, hmem, h2⟩
    · rcases step_stored s e name h h1 with h3 | ⟨r, iter, upload, he, h4⟩
      · left; exact h3
      · right
        exact ⟨r, iter, upload, by rw [he]; exact List.mem_cons_self _ _, h4⟩
    · right
      exact ⟨r, iter, upload, List.mem_cons_of_mem _ hmem, h2⟩

/-! ## Query counts -/

/-- The test `(mask>>i)&1 == 1` reads bit `i`. -/
theorem shift_and_one (m i : Nat) : ((m >>> i) &&& 1 = 1) ↔ m.testBit i = true := by
  rw [Nat.and_one_is_mod, Nat.testBit_to_div_mod, Nat.shiftRight_eq_div_pow]
  simp

theorem selectRows_append {α : Type} (sel : Nat → Bool) :
    ∀ (a b : List α) (start : Nat),
      selectRows sel start (a ++ b)
        = selectRows sel start a ++ selectRows sel (start + a.length) b := by
  intro a
  induction a with
  | nil => intro b start; simp [selectRows]
  | cons x a ih =>
    intro b start
    have e : start + (x :: a).length = start + 1 + a.length := by
      simp only [List.length_cons]; omega
    rw [e, List.cons_append]
    by_cases hs : sel start = true
    · have l1 : ∀ l : List α,
          selectRows sel start (x :: l) = x :: selectRows sel (start + 1) l := by
        intro l; simp [selectRows, hs]
      rw [l1, l1, ih b (start + 1)]
      simp
    · have l1 : ∀ l : List α,
          selectRows sel start (x :: l) = selectRows sel (start + 1) l := by
        intro l; simp [selectRows, hs]
      rw [l1, l1, ih b (start + 1)]

/-- Two selections that agree on the numbers of the rows pick the same rows. -/
theorem selectRows_congr {α : Type} (sel sel' : Nat → Bool) :
    ∀ (rows : List α) (start : Nat),
      (∀ j, j < rows.length → sel (start + j) = sel' (start + j)) →
      selectRows sel start rows = selectRows sel' start rows := by
  intro rows
  induction rows with
  | nil => intro start _; rfl
  | cons x rows ih =>
    intro start h
    have h0 : sel start = sel' start := by
      have := h 0 (by simp)
      simpa using this
    have hrest : selectRows sel (start + 1) rows = selectRows sel' (start + 1) rows := by
      apply ih
      intro j hj
      have := h (j + 1) (by simp only [List.length_cons]; omega)
      have e : start + (j + 1) = start + 1 + j := by omega
      rw [e] at this
      exact this
    simp only [selectRows, h0, hrest]

/-- One byte of the mask against the rows: up to `k` rows are consumed, and
row `j` of them is written exactly when bit `k - 1 - j` of the byte is set. -/
theorem unpackByte_spec {α : Type} (mask : Nat) :
    ∀ (k : Nat) (rows out : List α) (start : Nat),
      unpackByte mask k rows out
        = (rows.drop k,
           out ++ selectRows (fun t => mask.testBit (start + k - 1 - t)) start
             (rows.take k)) := by
  intro k
  induction k with
  | zero => intro rows out start; simp [unpackByte, selectRows]
  | succ k ih =>
    intro rows out start
    cases rows with
    | nil => simp [unpackByte, selectRows]
    | cons row rows =>
      simp only [unpackByte, List.drop_succ_cons, List.take_succ_cons, selectRows]
      rw [ih rows _ (start + 1)]
      have e1 : start + (k + 1) - 1 - start = k := by omega
      have e2 : ∀ t, start + 1 + k - 1 - t = start + (k + 1) - 1 - t := by
        intro t; omega
      simp only [e1, e2]
      by_cases hb : mask.testBit k = true
      · have := (shift_and_one mask k).mpr hb
        rw [if_pos this, if_pos hb]
        simp
      · have hn : ¬ ((mask >>> k) &&& 1 = 1) := fun hc => hb ((shift_and_one mask k).mp hc)
        rw [if_neg hn, if_neg hb]

/-- The whole mask against the rows: with `pre` the bytes already read and
`8 * len(pre)` the number of the next row, up to 8 rows per byte are consumed
and row `t` is written exactly when bit `t` of the mask is set. -/
theorem unpackMasks_spec {α : Type} :
    ∀ (masks pre : List Nat) (rows out : List α),
      unpackMasks masks rows out
        = (rows.drop (8 * masks.length),
           out ++ selectRows (fun t => maskBit (pre ++ masks) t) (8 * pre.length)
             (rows.take (8 * masks.length))) := by
  intro masks
  induction masks with
  | nil => intro pre rows out; simp [unpackMasks, selectRows]
  | cons mask masks ih =>
    intro pre rows out
    simp only [unpackMasks]
    rw [unpackByte_spec mask 8 rows out (8 * pre.length)]
    simp only
    rw [ih (pre ++ [mask]) (rows.drop 8) _]
    have hlen : 8 * (mask :: masks).length = 8 + 8 * masks.length := by
      simp only [List.length_cons]; omega
    rw [hlen, List.drop_drop, List.take_add, List.append_assoc]
    have hpre : pre ++ [mask] ++ masks = pre ++ mask :: masks := by simp
    rw [hpre]
    congr 1
    congr 1
    rw [selectRows_append]
    congr 1
    · apply selectRows_congr
      intro j hj
      have hj8 : j < 8 := by
        rw [List.length_take] at hj
        omega
      simp only [maskBit]
      have e1 : (8 * pre.length + j) / 8 = pre.length := by omega
      have e2 : (8 * pre.length + j) % 8 = j := by omega
      have e3 : 8 * pre.length + 8 - 1 - (8 * pre.length + j) = 7 - j := by omega
      rw [e1, e2, e3, List.getD_append_right _ _ _ _ le_rfl]
      simp
    · by_cases h8 : 8 ≤ rows.length
      · have : (rows.take 8).length = 8 := by
          rw [List.length_take]; omega
        rw [this]
        simp only [List.length_append, List.length_singleton]
        have e : 8 * (pre.length + 1) = 8 * pre.length + 8 := by omega
        rw [e]
      · rw [List.drop_eq_nil_of_le (by omega)]
        simp [selectRows]

/-- On the numbers themselves as rows, the selection is a filter. -/
theorem selectRows_range' (sel : Nat → Bool) :
    ∀ (n start : Nat), selectRows sel start (List.range' start n)
      = (List.range' start n).filter sel := by
  intro n
  induction n with
  | zero => intro start; rfl
  | succ n ih =>
    intro start
    simp only [List.range'_succ, selectRows, List.filter_cons, ih]

/-! ## Interleaved deposits -/

/-- The stretches of `advanceUpload`, run back to back, are `handleUpload`. -/
theorem serveAlone_eq (s : Store) (r : Request) (iter : List String) :
    serveAlone s r iter = handleUpload s r iter := by
  unfold serveAlone handleUpload advanceUpload
  by_cases hm : r.method = "PUT"
  · by_cases hn : r.nameList.length = 1
    · simp only [ne_eq, hm, not_true, if_false, hn]
      cases hl : s.uploadLock with
      | true => simp [lock, hl]
      | false =>
        simp only [lock, hl, Bool.false_eq_true, if_false]
        by_cases hh : mapHas s.uploads (r.nameList.headD "") = true
        · simp only [hh, if_true]
        · simp only [hh, Bool.false_eq_true, if_false, unlock, advanceUpload, lock]
          rcases hrd : readUint64s r.body with ⟨upload, _ | err⟩
          · simp
          · simp
    · simp [hm, hn]
  · simp [hm]

/-! ## Client: the key of a line -/

theorem sameLetter_delim (a b : Nat) (h : sameLetter a b) :
    delimiters.contains a = delimiters.contains b := by
  unfold sameLetter at h
  rcases h with h | h | h
  · rw [h]
  · have ha : delimiters.contains a = false := by
      simp only [delimiters, List.contains_eq_any_beq, List.any_cons, List.any_nil,
        Bool.or_false, Bool.or_eq_false_iff, beq_eq_false_iff_ne, ne_eq]
      omega
    have hb : delimiters.contains b = false := by
      simp only [delimiters, List.contains_eq_any_beq, List.any_cons, List.any_nil,
        Bool.or_false, Bool.or_eq_false_iff, beq_eq_false_iff_ne, ne_eq]
      omega
    rw [ha, hb]
  · have ha : delimiters.contains a = false := by
      simp only [delimiters, List.contains_eq_any_beq, List.any_cons, List.any_nil,
        Bool.or_false, Bool.or_eq_false_iff, beq_eq_false_iff_ne, ne_eq]
      omega
    have hb : delimiters.contains b = false := by
      simp only [delimiters, List.contains_eq_any_beq, List.any_cons, List.any_nil,
        Bool.or_false, Bool.or_eq_false_iff, beq_eq_false_iff_ne, ne_eq]
      omega
    rw [ha, hb]

/-- Without input `Scan` answers false. -/
theorem scan_end (f : Bool) :
    scan ⟨[], f⟩ = Except.error (if f then ScanError.readError else ScanError.eof) := by
  unfold scan
  simp

/-- A rune that starts a non-empty slice is at least one byte wide. -/
theorem decodeRune_width (c : Nat) (rest : List Nat) : 1 ≤ (decodeRune (c :: rest)).2 := by
  unfold decodeRune
  split_ifs <;> simp_all

/-- Once the fuel covers the bytes, `mapUpper` has read all of them: more
fuel does not change the result. -/
theorem mapUpper_fuel (emit : Nat → List Nat) :
    ∀ (fuel extra : Nat) (s : List Nat), s.length ≤ fuel →
      mapUpper emit (fuel + extra) s = mapUpper emit fuel s := by
  intro fuel
  induction fuel with
  | zero =>
    intro extra s h
    have : s = [] := List.length_eq_zero.mp (by omega)
    subst this
    cases extra <;> rfl
  | succ fuel ih =>
    intro extra s h
    have e : fuel + 1 + extra = (fuel + extra) + 1 := by omega
    rw [e]
    cases s with
    | nil => rfl
    | cons c rest =>
      simp only [List.length_cons] at h
      unfold mapUpper
      by_cases hc : c < 0x80
      · simp only [hc, if_true]
        rw [ih extra rest (by omega)]
      · simp only [hc, if_false]
        rw [ih extra _ (by
          have := decodeRune_width c rest
          simp only [List.length_drop, List.length_cons]
          omega)]

/-- The eviction loop keeps every name of the map in the ledger. -/
theorem evictLoop_ledger :
    ∀ (history : List String) (size : Int) (uploads : List (String × List Nat)),
      (∀ k, mapHas uploads k = true → k ∈ history) →
      ∀ k, mapHas (evictLoop size uploads history).1 k = true →
        k ∈ (evictLoop size uploads history).2 := by
  intro history
  induction history with
  | nil =>
    intro size uploads h k hk
    simp only [evictLoop] at hk ⊢
    exact h k hk
  | cons oldest rest ih =>
    intro size uploads h k hk
    unfold evictLoop at hk ⊢
    by_cases hs : size > (maxTotalHashes : Int)
    · simp only [hs, if_true] at hk ⊢
      refine ih _ _ ?_ k hk
      intro k' hk'
      by_cases hko : k' = oldest
      · rw [hko, mapHas_mapDelete_self] at hk'
        exact absurd hk' (by simp)
      · rw [mapHas_mapDelete_ne _ _ _ hko] at hk'
        rcases List.mem_cons.mp (h k' hk') with h1 | h1
        · exact absurd h1 hko
        · exact h1
    · simp only [hs, if_false] at hk ⊢
      exact h k hk

theorem mapDelete_ledger (m : List (String × List Nat)) (k : String) (history : List String)
    (h : ∀ k', mapHas m k' = true → k' ∈ history) :
    ∀ k', mapHas (mapDelete m k) k' = true → k' ∈ history := by
  intro k' hk'
  by_cases hk : k' = k
  · rw [hk, mapHas_mapDelete_self] at hk'
    exact absurd hk' (by simp)
  · rw [mapHas_mapDelete_ne _ _ _ hk] at hk'
    exact h k' hk'

/-- No event puts a name into the map without it being in the ledger. -/
theorem step_ledger (s : Store) (e : Event)
    (hinv : ∀ k, mapHas s.uploads k = true → k ∈ s.uploadHistory) :
    ∀ k, mapHas (step s e).uploads k = true → k ∈ (step s e).uploadHistory := by
  cases e with
  | upload r iter =>
    simp only [step]
    cases h : handleUpload s r iter with
    | none => exact hinv
    | some p =>
      simp only
      by_cases hm : r.method = "PUT"
      · by_cases hn : r.nameList.length = 1
        · obtain ⟨name, hr⟩ := request_shape r hm hn
          rw [hr] at h
          cases hl : s.uploadLock with
          | true => rw [handleUpload_blocked s name _ iter hl] at h; simp at h
          | false =>
            cases hhas : mapHas s.uploads name with
            | true =>
              rw [handleUpload_taken s name _ iter hl hhas] at h
              simp only [Option.some.injEq] at h
              rw [← h]; exact hinv
            | false =>
              rcases hrd : readUint64s r.body with ⟨upload, _ | err⟩
              · rw [handleUpload_read s name _ upload iter hl hhas hrd] at h
                simp only [Option.some.injEq] at h
                rw [← h]
                apply evictLoop_ledger
                intro k hk
                show k ∈ s.uploadHistory ++ [name]
                by_cases hkn : k = name
                · rw [hkn]; simp
                · have hk' : mapHas (mapSet s.uploads name (sortHashes upload)) k = true := hk
                  rw [mapHas_mapSet_ne _ _ _ _ hkn] at hk'
                  exact List.mem_append_left _ (hinv k hk')
              · rw [handleUpload_read_err s name _ upload iter err hl hhas hrd] at h
                simp only [Option.some.injEq] at h
                rw [← h]; exact hinv
        · unfold handleUpload at h
          simp only [ne_eq, hm, not_true, if_false, hn, not_false_eq_true, if_true,
            Option.some.injEq] at h
          rw [← h]; exact hinv
      · unfold handleUpload at h
        simp only [ne_eq, hm, not_false_eq_true, if_true, Option.some.injEq] at h
        rw [← h]; exact hinv
  | query r =>
    simp only [step]
    cases h : handleMatch s r with
    | none => exact hinv
    | some p =>
      simp only
      have hf := (handleMatch_frame s r p h).1
      rw [hf]
      by_cases hm : r.method = "PUT"
      · by_cases hn : r.nameList.length = 1
        · obtain ⟨name, hr⟩ := request_shape r hm hn
          rw [hr] at h
          cases hl : s.uploadLock with
          | true => rw [handleMatch_blocked s name _ hl] at h; simp at h
          | false =>
            by_cases hnil : mapGet s.uploads name [] = []
            · rw [handleMatch_nil s name _ hl hnil] at h
              simp only [Option.some.injEq] at h
              rw [← h]; exact hinv
            · rcases hrd : readUint64s r.body with ⟨needles, _ | err⟩
              · rw [handleMatch_read s name _ needles hl hnil hrd] at h
                split at h
                · simp only [Option.some.injEq] at h
                  rw [← h]; exact mapDelete_ledger _ _ _ hinv
                · simp only [Option.some.injEq] at h
                  rw [← h]; exact hinv
              · rw [handleMatch_read_err s name _ needles err hl hnil hrd] at h
                simp only [Option.some.injEq] at h
                rw [← h]; exact hinv
        · unfold handleMatch at h
          simp only [ne_eq, hm, not_true, if_false, hn, not_false_eq_true, if_true,
            Option.some.injEq] at h
          rw [← h]; exact hinv
      · unfold handleMatch at h
        simp only [ne_eq, hm, not_false_eq_true, if_true, Option.some.injEq] at h
        rw [← h]; exact hinv
  | timer name =>
    simp only [step]
    by_cases hin : name ∈ s.timers
    · simp only [hin, if_true]
      cases hl : s.uploadLock with
      | true =>
        have : expire s name = none := by simp [expire, lock, hl]
        rw [this]; exact hinv
      | false =>
        rw [expire_ok s name hl]
        exact mapDelete_ledger _ _ _ hinv
    · simp only [hin, if_false]; exact hinv

/-- Along every run from a store whose map is within its ledger, the map stays
within the ledger. -/
theorem run_ledger : ∀ (events : List Event) (s : Store),
    (∀ k, mapHas s.uploads k = true → k ∈ s.uploadHistory) →
    ∀ k, mapHas (run s events).uploads k = true → k ∈ (run s events).uploadHistory := by
  intro events
  induction events with
  | nil => intro s h; exact h
  | cons e es ih =>
    intro s h
    show ∀ k, mapHas (run (step s e) es).uploads k = true →
      k ∈ (run (step s e) es).uploadHistory
    exact ih (step s e) (step_ledger s e h)

/-- C1: for a haystack sorted ascending and any needle sequence, bit `i` of
`findHashes needles haystack` (byte `i / 8`, bit position `7 - i % 8`) is 1
exactly when `needles[i]` occurs in the haystack; the lists may hold
duplicates, and two equal needles get equal bits. -/
theorem C1_findHashes_bit_iff_mem (needles haystack : List Nat)
    (hs : haystack.Sorted (· ≤ ·)) (i : Nat) (hi : i < needles.length) :
    (((findHashes needles haystack).getD (i / 8) 0).testBit (7 - i % 8) = true
        ↔ needles[i] ∈ haystack) ∧
    (∀ (j : Nat) (hj : j < needles.length), needles[j] = needles[i] →
      ((findHashes needles haystack).getD (j / 8) 0).testBit (7 - j % 8)
        = ((findHashes needles haystack).getD (i / 8) 0).testBit (7 - i % 8)) := by
  have hbit : ∀ (t : Nat) (ht : t < needles.length),
      ((findHashes needles haystack).getD (t / 8) 0).testBit (7 - t % 8)
        = findHash needles[t] haystack := by
    intro t ht
    have := findHashes_bit needles haystack t
    rw [hit_of_lt needles haystack t ht] at this
    exact this
  constructor
  · rw [hbit i hi]
    exact findHash_iff_mem _ _ hs
  · intro j hj hji
    rw [hbit i hi, hbit j hj, hji]

/-- C1 at needles `[3, 2, 3]`, haystack `[1, 3, 3, 5]`, needle 0. -/
theorem C1_findHashes_bit_iff_mem_witness :
    (((findHashes [3, 2, 3] [1, 3, 3, 5]).getD (0 / 8) 0).testBit (7 - 0 % 8) = true
        ↔ [3, 2, 3][0] ∈ [1, 3, 3, 5]) ∧
    (∀ (j : Nat) (hj : j < [3, 2, 3].length), [3, 2, 3][j] = [3, 2, 3][0] →
      ((findHashes [3, 2, 3] [1, 3, 3, 5]).getD (j / 8) 0).testBit (7 - j % 8)
        = ((findHashes [3, 2, 3] [1, 3, 3, 5]).getD (0 / 8) 0).testBit (7 - 0 % 8)) :=
  C1_findHashes_bit_iff_mem [3, 2, 3] [1, 3, 3, 5] (by decide) 0 (by decide)

/-- C2: `findHashes` returns `ceil(n/8)` bytes (each below 256); needle `i` is
answered in byte `i / 8` at bit `7 - i % 8`, most significant bit first; when
`n` is not a multiple of 8 the `8 - n % 8` low-order bits of the last byte
are 0. -/
theorem C2_findHashes_packing (needles haystack : List Nat) :
    (findHashes needles haystack).length = (needles.length + 7) / 8 ∧
    (∀ b ∈ findHashes needles haystack, b < 256) ∧
    (∀ (i : Nat) (hi : i < needles.length),
      ((findHashes needles haystack).getD (i / 8) 0).testBit (7 - i % 8)
        = findHash needles[i] haystack) ∧
    (needles.length % 8 ≠ 0 → ∀ p, p < 8 - needles.length % 8 →
      ((findHashes needles haystack).getD ((needles.length + 7) / 8 - 1) 0).testBit p
        = false) := by
  refine ⟨findHashes_length needles haystack, ?_, ?_, ?_⟩
  · exact outLoop_lt needles haystack needles.length 0 [] (by simp)
  · intro i hi
    have := findHashes_bit needles haystack i
    rw [hit_of_lt needles haystack i hi] at this
    exact this
  · intro hn p hp
    have := findHashes_bit needles haystack (8 * (needles.length / 8) + (7 - p))
    rw [hit_of_ge needles haystack _ (by omega)] at this
    unfold maskBit at this
    have e1 : (8 * (needles.length / 8) + (7 - p)) / 8 = (needles.length + 7) / 8 - 1 := by
      omega
    have e2 : 7 - (8 * (needles.length / 8) + (7 - p)) % 8 = p := by omega
    rw [e1, e2] at this
    exact this

/-- C3: from the empty store, depositing a non-empty list `U` of at most 10^8
64-bit values under a name and then querying the name with at most 10^8
needles `N` succeeds, and bit `i` of the returned mask is 1 exactly when
`N[i]` is an element of `U`; depositing `5, 1, 3` and querying `1, 2, 3`
returns the single byte `0b10100000`. -/
theorem C3_deposit_then_query (name : String) (U N : List Nat) (iter : List String)
    (hU : U ≠ []) (hUl : U.length ≤ 10 ^ 8) (hNl : N.length ≤ 10 ^ 8)
    (hUb : ∀ x ∈ U, x < 2 ^ 64) (hNb : ∀ x ∈ N, x < 2 ^ 64) :
    (∃ s1 s2 mask,
      handleUpload Store.empty ⟨"PUT", [name], encodeHashes U⟩ iter
        = some (Response.noContent, s1) ∧
      handleMatch s1 ⟨"PUT", [name], encodeHashes N⟩ = some (Response.ok mask, s2) ∧
      ∀ (i : Nat) (hi : i < N.length),
        ((mask.getD (i / 8) 0).testBit (7 - i % 8) = true ↔ N[i] ∈ U)) ∧
    (∃ s1 s2,
      handleUpload Store.empty ⟨"PUT", [name], encodeHashes [5, 1, 3]⟩ iter
        = some (Response.noContent, s1) ∧
      handleMatch s1 ⟨"PUT", [name], encodeHashes [1, 2, 3]⟩
        = some (Response.ok [0b10100000], s2)) := by
  have main := deposit_then_query name
  constructor
  · obtain ⟨h1, h2⟩ := main U N iter hU (by simpa [maxHashes] using hUl)
      (by simpa [maxHashes] using hNl) hUb hNb
    refine ⟨_, _, _, h1, h2, ?_⟩
    intro i hi
    have hb := findHashes_bit N (sortHashes U) i
    rw [hit_of_lt N (sortHashes U) i hi] at hb
    unfold maskBit at hb
    rw [hb, findHash_iff_mem _ _ (sortHashes_sorted U), mem_sortHashes]
  · obtain ⟨h1, h2⟩ := main [5, 1, 3] [1, 2, 3] iter (by simp) (by simp [maxHashes])
      (by simp [maxHashes]) (by decide) (by decide)
    have e : findHashes [1, 2, 3] (sortHashes [5, 1, 3]) = [160] := by decide
    rw [e] at h2
    exact ⟨_, _, h1, h2⟩

/-- C3 at `U = [5, 1, 3]`, `N = [1, 2, 3]`, name `a`. -/
theorem C3_deposit_then_query_witness :
    (∃ s1 s2 mask,
      handleUpload Store.empty ⟨"PUT", ["a"], encodeHashes [5, 1, 3]⟩ []
        = some (Response.noContent, s1) ∧
      handleMatch s1 ⟨"PUT", ["a"], encodeHashes [1, 2, 3]⟩ = some (Response.ok mask, s2) ∧
      ∀ (i : Nat) (hi : i < [1, 2, 3].length),
        ((mask.getD (i / 8) 0).testBit (7 - i % 8) = true ↔ [1, 2, 3][i] ∈ [5, 1, 3])) ∧
    (∃ s1 s2,
      handleUpload Store.empty ⟨"PUT", ["a"], encodeHashes [5, 1, 3]⟩ []
        = some (Response.noContent, s1) ∧
      handleMatch s1 ⟨"PUT", ["a"], encodeHashes [1, 2, 3]⟩
        = some (Response.ok [0b10100000], s2)) :=
  C3_deposit_then_query "a" [5, 1, 3] [1, 2, 3] [] (by decide) (by decide) (by decide)
    (by decide) (by decide)

/-- C4 fails on the code in a state the handlers reach: deposit under `a`,
then deposit under `a` again.  The second deposit is answered "that name's
taken" and leaves `uploadLock` held; the map still has `a`, and a further
deposit under `a`, with any body, blocks in `Lock()` and is never answered
"that name's taken".  A deposit under a taken name that finds the lock free
is answered "that name's taken" and leaves the map, the ledger and the counts
as they were. -/
theorem C4_duplicate_deposit_blocks :
    run Store.empty [Event.upload ⟨"PUT", ["a"], encodeHashes [1]⟩ [],
        Event.upload ⟨"PUT", ["a"], encodeHashes [2]⟩ []]
      = ⟨[("a", [1])], [], ["a"], true, ["a"]⟩ ∧
    mapHas (⟨[("a", [1])], [], ["a"], true, ["a"]⟩ : Store).uploads "a" = true ∧
    (∀ (body : List Nat) (iter : List String),
      handleUpload ⟨[("a", [1])], [], ["a"], true, ["a"]⟩ ⟨"PUT", ["a"], body⟩ iter = none) ∧
    (∀ (s : Store) (name : String) (body : List Nat) (iter : List String),
      s.uploadLock = false → mapHas s.uploads name = true →
      ∃ s', handleUpload s ⟨"PUT", [name], body⟩ iter
          = some (Response.error Failure.nameTaken, s') ∧
        s'.uploads = s.uploads ∧ mapGet s'.uploads name [] = mapGet s.uploads name [] ∧
        s'.uploadHistory = s.uploadHistory ∧
        s'.uploadMatchCounts = s.uploadMatchCounts) := by
  refine ⟨by decide, by decide, ?_, ?_⟩
  · intro body iter
    exact handleUpload_blocked _ "a" body iter rfl
  · intro s name body iter hl hn
    exact ⟨_, handleUpload_taken s name body iter hl hn, rfl, rfl, rfl, rfl⟩

/-- C5 fails on the code in a state the handlers reach: deposit under `a`,
then deposit under `a` again, which leaves `uploadLock` held.  The name `b`
was never deposited, yet a query under `b`, with any body, blocks in `Lock()`
and is never answered "upload missing".  A query under a name the map does
not hold that finds the lock free is answered "upload missing" and changes
nothing; the name is out of the map in the empty store, once its expiry
callback ran, once the eviction loop popped it from the ledger, and after the
budget penalty. -/
theorem C5_query_blocks_after_leak :
    run Store.empty [Event.upload ⟨"PUT", ["a"], encodeHashes [1]⟩ [],
        Event.upload ⟨"PUT", ["a"], encodeHashes [2]⟩ []]
      = ⟨[("a", [1])], [], ["a"], true, ["a"]⟩ ∧
    mapHas (⟨[("a", [1])], [], ["a"], true, ["a"]⟩ : Store).uploads "b" = false ∧
    (∀ body : List Nat,
      handleMatch ⟨[("a", [1])], [], ["a"], true, ["a"]⟩ ⟨"PUT", ["b"], body⟩ = none) ∧
    (∀ (s : Store) (name : String) (body : List Nat),
      s.uploadLock = false → mapHas s.uploads name = false →
      handleMatch s ⟨"PUT", [name], body⟩
        = some (Response.error Failure.uploadMissing, s)) ∧
    (∀ name : String, mapHas Store.empty.uploads name = false) ∧
    (∀ (s0 : Store) (name : String), s0.uploadLock = false →
      ∃ s1, expire s0 name = some s1 ∧ s1.uploadLock = false ∧
        mapHas s1.uploads name = false) ∧
    (∀ (s0 : Store) (name : String) (iter : List String), name ∈ s0.uploadHistory →
      name ∉ (cleanOldUploads s0 iter).uploadHistory →
      mapHas (cleanOldUploads s0 iter).uploads name = false) ∧
    (∀ (s0 s1 : Store) (name : String) (body0 : List Nat),
      handleMatch s0 ⟨"PUT", [name], body0⟩
        = some (Response.error Failure.tooManyMatches, s1) →
      s1.uploadLock = false ∧ mapHas s1.uploads name = false) := by
  refine ⟨by decide, by decide, ?_, ?_, ?_, ?_, ?_, ?_⟩
  · intro body
    exact handleMatch_blocked _ "b" body rfl
  · intro s name body hl hn
    exact handleMatch_missing s name body hl hn
  · intro name
    rfl
  · intro s0 name h0
    exact ⟨_, expire_ok s0 name h0, h0, mapHas_mapDelete_self _ _⟩
  · intro s0 name iter hin hout
    exact evictLoop_popped name _ _ _ hin hout
  · intro s0 s1 name body0 h
    exact ⟨(handleMatch_penalty s0 s1 name body0 h).2, (handleMatch_penalty s0 s1 name body0 h).1⟩

/-- C7 fails on the code: from the empty store, deposit 6 * 10^7 hashes under
`a` and then 6 * 10^7 under `b`, whatever the order of the map ranges.  Both
deposits succeed; afterwards the map holds 1.2 * 10^8 hashes, above the cap of
10^8, the ledger is `[a, b]`, nothing was evicted, and the oldest upload `a`
still answers queries with a mask. -/
theorem C7_total_exceeds_cap (iter1 iter2 : List String) :
    ∃ s1 s2,
      handleUpload Store.empty ⟨"PUT", ["a"], encodeHashes (List.replicate 60000000 0)⟩ iter1
        = some (Response.noContent, s1) ∧
      handleUpload s1 ⟨"PUT", ["b"], encodeHashes (List.replicate 60000000 0)⟩ iter2
        = some (Response.noContent, s2) ∧
      totalHashes s2.uploads = 120000000 ∧
      ¬ (totalHashes s2.uploads ≤ maxTotalHashes ∨ s2.uploadHistory = []) ∧
      s2.uploadHistory = ["a", "b"] ∧
      mapGet s2.uploads "a" [] = List.replicate 60000000 0 ∧
      ∃ mask s3, handleMatch s2 ⟨"PUT", ["a"], encodeHashes [0]⟩
        = some (Response.ok mask, s3) := by
  have hlen : (List.replicate 60000000 0).length ≤ maxHashes := by
    rw [List.length_replicate]; decide
  have hb : ∀ x ∈ List.replicate 60000000 0, x < 2 ^ 64 := by
    intro x hx
    rw [List.eq_of_mem_replicate hx]
    decide
  obtain ⟨h1, h2⟩ := two_deposits "a" "b" (by decide) (List.replicate 60000000 0)
    (List.replicate 60000000 0) iter1 iter2 hlen hlen hb hb
  rw [sortHashes_replicate] at h1 h2
  have hget : mapGet [("b", List.replicate 60000000 0), ("a", List.replicate 60000000 0)]
      "a" [] = List.replicate 60000000 0 := by
    have e1 : ("a" == "b") = false := by decide
    have e2 : ("a" == "a") = true := by decide
    simp only [mapGet, List.lookup_cons, e1, e2, Option.getD_some]
  have htot : totalHashes [("b", List.replicate 60000000 0),
      ("a", List.replicate 60000000 0)] = 120000000 := by
    simp only [totalHashes, List.map_cons, List.map_nil, List.length_replicate,
      List.sum_cons, List.sum_nil]
    decide
  refine ⟨_, _, h1, h2, htot, ?_, rfl, hget, ?_⟩
  · intro hc
    rcases hc with hc | hc
    · rw [htot] at hc
      exact absurd hc (by decide)
    · exact absurd hc (by simp)
  · have hne : mapGet (⟨[("b", List.replicate 60000000 0), ("a", List.replicate 60000000 0)],
        [], ["a", "b"], false, ["a", "b"]⟩ : Store).uploads "a" [] ≠ [] := by
      show mapGet [("b", List.replicate 60000000 0), ("a", List.replicate 60000000 0)]
        "a" [] ≠ []
      rw [hget]
      intro hc
      have := congrArg List.length hc
      rw [List.length_replicate] at this
      exact absurd this (by decide)
    have hm := handleMatch_read _ "a" (encodeHashes [0]) [0] rfl hne
      (readUint64s_encode [0] (by decide) (by decide))
    rw [if_neg (by decide)] at hm
    exact ⟨_, _, hm⟩

/-- C8: for a sequence of at most 10^8 64-bit values, `readUint64s` applied to
the concatenation of their 8-byte big-endian encodings returns the sequence
and no error; the empty stream decodes to the empty sequence with no error. -/
theorem C8_readUint64s_roundtrip (xs : List Nat) (hb : ∀ x ∈ xs, x < 2 ^ 64)
    (hl : xs.length ≤ 10 ^ 8) :
    readUint64s (encodeHashes xs) = (xs, none) ∧ readUint64s [] = ([], none) :=
  ⟨readUint64s_encode xs hb (by simpa [maxHashes] using hl), rfl⟩

/-- C8 at `[5, 2^64 - 1, 0, 258]`. -/
theorem C8_readUint64s_roundtrip_witness :
    readUint64s (encodeHashes [5, 18446744073709551615, 0, 258])
      = ([5, 18446744073709551615, 0, 258], none) ∧
    readUint64s [] = ([], none) :=
  C8_readUint64s_roundtrip [5, 18446744073709551615, 0, 258] (by decide) (by decide)

/-- C9: `readUint64s` returns an error exactly when the stream's length is not
a multiple of 8 or it holds more than 10^8 complete records; more than 10^8
records give `errTooManyHashes`, a stream that ends inside an integer within
the ceiling gives `io.ErrUnexpectedEOF`; exactly 10^8 records are accepted and
10^8 + 1 records fail with `errTooManyHashes`. -/
theorem C9_readUint64s_errors (body : List Nat) :
    ((readUint64s body).2 ≠ none ↔ (body.length % 8 ≠ 0 ∨ body.length / 8 > 10 ^ 8)) ∧
    (body.length / 8 > 10 ^ 8 → readUint64s body = ([], some ReadError.tooManyHashes)) ∧
    (body.length % 8 ≠ 0 → body.length / 8 ≤ 10 ^ 8 →
      (readUint64s body).2 = some ReadError.unexpectedEOF) ∧
    (body.length = 8 * 10 ^ 8 → (readUint64s body).2 = none) ∧
    (body.length = 8 * (10 ^ 8 + 1) →
      readUint64s body = ([], some ReadError.tooManyHashes)) := by
  have hiff : ((readUint64s body).2 ≠ none ↔
      (body.length % 8 ≠ 0 ∨ body.length / 8 > 10 ^ 8)) := by
    have := (readLoop_err_iff body [] (Nat.zero_le _)).1
    simpa [readUint64s, maxHashes] using this
  have hmany : body.length / 8 > 10 ^ 8 →
      readUint64s body = ([], some ReadError.tooManyHashes) := by
    intro h
    exact readUint64s_tooMany body (by simpa [maxHashes] using h)
  refine ⟨hiff, hmany, ?_, ?_, ?_⟩
  · intro h1 h2
    exact readLoop_truncated body [] (by simpa [maxHashes] using h2) h1
  · intro h
    by_contra hc
    have := hiff.mp hc
    omega
  · intro h
    exact hmany (by omega)

/-- C10: a deposit that is answered with an error leaves the map, the ledger,
the query counts and the armed callbacks exactly as they were; and a deposit
fails so when the `name` parameter is missing or repeated and, arriving with
the lock free, when the name is taken or, under a new name, when the body ends
inside an integer or holds more than 10^8 records. -/
theorem C10_failed_deposit_no_change (s : Store) (r : Request) (iter : List String)
    (e : Failure) (s' : Store) (h : handleUpload s r iter = some (Response.error e, s')) :
    (s'.uploads = s.uploads ∧ s'.uploadHistory = s.uploadHistory ∧
      s'.uploadMatchCounts = s.uploadMatchCounts ∧ s'.timers = s.timers) ∧
    (∀ r0 : Request, r0.method = "PUT" → r0.nameList.length ≠ 1 →
      handleUpload s r0 iter = some (Response.error Failure.needName, s)) ∧
    (s.uploadLock = false → ∀ (name : String) (body : List Nat),
      mapHas s.uploads name = true →
      ∃ s1, handleUpload s ⟨"PUT", [name], body⟩ iter
          = some (Response.error Failure.nameTaken, s1) ∧
        s1.uploads = s.uploads ∧ s1.uploadHistory = s.uploadHistory ∧
        s1.uploadMatchCounts = s.uploadMatchCounts) ∧
    (s.uploadLock = false → ∀ (name : String) (body : List Nat),
      mapHas s.uploads name = false →
      (body.length % 8 ≠ 0 ∨ body.length / 8 > 10 ^ 8) →
      ∃ err, handleUpload s ⟨"PUT", [name], body⟩ iter
          = some (Response.error (Failure.reading err), s)) := by
  refine ⟨handleUpload_error_unchanged s r iter e s' h, ?_, ?_, ?_⟩
  · intro r0 hm hn
    exact handleUpload_needName s r0 iter hm hn
  · intro hl name body hn
    exact ⟨_, handleUpload_taken s name body iter hl hn, rfl, rfl, rfl⟩
  · intro hl name body hn hbad
    have hne : (readUint64s body).2 ≠ none := by
      have := (readLoop_err_iff body [] (Nat.zero_le _)).1
      simp only [List.length_nil, Nat.zero_add] at this
      exact this.mpr (by simpa [maxHashes] using hbad)
    rcases hrd : readUint64s body with ⟨got, _ | err⟩
    · rw [hrd] at hne; exact absurd rfl hne
    · exact ⟨err, handleUpload_read_err s name body got iter err hl hn hrd⟩

/-- C10 at a store holding `[1, 3, 5]` under `a` with count 2, and a second
deposit under `a`, answered "that name's taken". -/
theorem C10_failed_deposit_no_change_witness :
    ((⟨[("a", [1, 3, 5])], [("a", 2)], ["a"], true, ["a"]⟩ : Store).uploads
        = (⟨[("a", [1, 3, 5])], [("a", 2)], ["a"], false, ["a"]⟩ : Store).uploads ∧
      (⟨[("a", [1, 3, 5])], [("a", 2)], ["a"], true, ["a"]⟩ : Store).uploadHistory
        = (⟨[("a", [1, 3, 5])], [("a", 2)], ["a"], false, ["a"]⟩ : Store).uploadHistory ∧
      (⟨[("a", [1, 3, 5])], [("a", 2)], ["a"], true, ["a"]⟩ : Store).uploadMatchCounts
        = (⟨[("a", [1, 3, 5])], [("a", 2)], ["a"], false, ["a"]⟩ : Store).uploadMatchCounts ∧
      (⟨[("a", [1, 3, 5])], [("a", 2)], ["a"], true, ["a"]⟩ : Store).timers
        = (⟨[("a", [1, 3, 5])], [("a", 2)], ["a"], false, ["a"]⟩ : Store).timers) ∧
    (∀ r0 : Request, r0.method = "PUT" → r0.nameList.length ≠ 1 →
      handleUpload ⟨[("a", [1, 3, 5])], [("a", 2)], ["a"], false, ["a"]⟩ r0 []
        = some (Response.error Failure.needName,
            ⟨[("a", [1, 3, 5])], [("a", 2)], ["a"], false, ["a"]⟩)) ∧
    ((⟨[("a", [1, 3, 5])], [("a", 2)], ["a"], false, ["a"]⟩ : Store).uploadLock = false →
      ∀ (name : String) (body : List Nat),
      mapHas (⟨[("a", [1, 3, 5])], [("a", 2)], ["a"], false, ["a"]⟩ : Store).uploads name
        = true →
      ∃ s1, handleUpload ⟨[("a", [1, 3, 5])], [("a", 2)], ["a"], false, ["a"]⟩
            ⟨"PUT", [name], body⟩ []
          = some (Response.error Failure.nameTaken, s1) ∧
        s1.uploads = (⟨[("a", [1, 3, 5])], [("a", 2)], ["a"], false, ["a"]⟩ : Store).uploads ∧
        s1.uploadHistory
          = (⟨[("a", [1, 3, 5])], [("a", 2)], ["a"], false, ["a"]⟩ : Store).uploadHistory ∧
        s1.uploadMatchCounts
          = (⟨[("a", [1, 3, 5])], [("a", 2)], ["a"], false, ["a"]⟩ : Store).uploadMatchCounts) ∧
    ((⟨[("a", [1, 3, 5])], [("a", 2)], ["a"], false, ["a"]⟩ : Store).uploadLock = false →
      ∀ (name : String) (body : List Nat),
      mapHas (⟨[("a", [1, 3, 5])], [("a", 2)], ["a"], false, ["a"]⟩ : Store).uploads name
        = false →
      (body.length % 8 ≠ 0 ∨ body.length / 8 > 10 ^ 8) →
      ∃ err, handleUpload ⟨[("a", [1, 3, 5])], [("a", 2)], ["a"], false, ["a"]⟩
            ⟨"PUT", [name], body⟩ []
          = some (Response.error (Failure.reading err),
              ⟨[("a", [1, 3, 5])], [("a", 2)], ["a"], false, ["a"]⟩)) :=
  C10_failed_deposit_no_change ⟨[("a", [1, 3, 5])], [("a", 2)], ["a"], false, ["a"]⟩
    ⟨"PUT", ["a"], encodeHashes [7]⟩ [] Failure.nameTaken
    ⟨[("a", [1, 3, 5])], [("a", 2)], ["a"], true, ["a"]⟩ (by decide)

/-- C11, as stated, fails from ledger to map: deposit one hash under `a`, then
let the expiry callback of `a` fire.  The map no longer has `a`, the ledger
still has it.  The callback and the budget penalty delete from `uploads` and
leave `uploadHistory` as it was. -/
theorem C11_counterexample :
    run Store.empty [Event.upload ⟨"PUT", ["a"], encodeHashes [1]⟩ [], Event.timer "a"]
      = ⟨[], [], ["a"], false, []⟩ ∧
    "a" ∈ (run Store.empty [Event.upload ⟨"PUT", ["a"], encodeHashes [1]⟩ [],
      Event.timer "a"]).uploadHistory ∧
    mapHas (run Store.empty [Event.upload ⟨"PUT", ["a"], encodeHashes [1]⟩ [],
      Event.timer "a"]).uploads "a" = false ∧
    (∀ (s : Store) (name : String), s.uploadLock = false →
      ∃ s1, expire s name = some s1 ∧ s1.uploadHistory = s.uploadHistory ∧
        mapHas s1.uploads name = false) ∧
    (∀ (s s1 : Store) (name : String) (body : List Nat),
      handleMatch s ⟨"PUT", [name], body⟩
        = some (Response.error Failure.tooManyMatches, s1) →
      s1.uploadHistory = s.uploadHistory ∧ mapHas s1.uploads name = false) := by
  refine ⟨by decide, by decide, by decide, ?_, ?_⟩
  · intro s name hl
    exact ⟨_, expire_ok s name hl, rfl, mapHas_mapDelete_self _ _⟩
  · intro s s1 name body h
    exact ⟨(handleMatch_frame s _ _ h).1, (handleMatch_penalty s s1 name body h).1⟩

/-- C11, amended: in every state reached from the empty store by deposits,
queries and expiry callbacks, a name that is in the map of uploads is in the
ledger. -/
theorem C11_map_within_ledger (events : List Event) (name : String)
    (h : mapHas (run Store.empty events).uploads name = true) :
    name ∈ (run Store.empty events).uploadHistory :=
  run_ledger events Store.empty (by intro k hk; simp [Store.empty, mapHas] at hk) name h

/-- C11 (amended) at the run that deposits under `a`, then under `b`, and
lets the callback of `a` fire, for the name `b`. -/
theorem C11_map_within_ledger_witness :
    "b" ∈ (run Store.empty [Event.upload ⟨"PUT", ["a"], encodeHashes [1]⟩ [],
      Event.upload ⟨"PUT", ["b"], encodeHashes [2]⟩ [], Event.timer "a"]).uploadHistory :=
  C11_map_within_ledger [Event.upload ⟨"PUT", ["a"], encodeHashes [1]⟩ [],
    Event.upload ⟨"PUT", ["b"], encodeHashes [2]⟩ [], Event.timer "a"] "b" (by decide)

/-- C14 fails on the code: deposit under `a`, then deposit under `a` again.
The second deposit is answered "that name's taken" with `uploadLock` still
held, and from then on a query, a deposit under another name and the expiry
callback all block in `Lock()`.  Every other path gives the lock back: a
query always does, a deposit does unless it answers "that name's taken". -/
theorem C14_name_taken_keeps_lock :
    handleUpload Store.empty ⟨"PUT", ["a"], encodeHashes [1]⟩ []
      = some (Response.noContent, ⟨[("a", [1])], [], ["a"], false, ["a"]⟩) ∧
    handleUpload ⟨[("a", [1])], [], ["a"], false, ["a"]⟩ ⟨"PUT", ["a"], encodeHashes [2]⟩ []
      = some (Response.error Failure.nameTaken, ⟨[("a", [1])], [], ["a"], true, ["a"]⟩) ∧
    handleMatch ⟨[("a", [1])], [], ["a"], true, ["a"]⟩ ⟨"PUT", ["a"], encodeHashes [1]⟩
      = none ∧
    handleUpload ⟨[("a", [1])], [], ["a"], true, ["a"]⟩ ⟨"PUT", ["b"], encodeHashes [1]⟩ []
      = none ∧
    expire ⟨[("a", [1])], [], ["a"], true, ["a"]⟩ "a" = none ∧
    (∀ (s : Store) (r : Request) (p : Response × Store), s.uploadLock = false →
      handleMatch s r = some p → p.2.uploadLock = false) ∧
    (∀ (s : Store) (r : Request) (iter : List String) (p : Response × Store),
      s.uploadLock = false → handleUpload s r iter = some p →
      p.1 ≠ Response.error Failure.nameTaken → p.2.uploadLock = false) := by
  refine ⟨by decide, by decide, by decide, by decide, by decide, ?_, ?_⟩
  · intro s r p hl h
    exact (handleMatch_frame s r p h).2.2 hl
  · intro s r iter p hl h hne
    exact handleUpload_unlocks s r iter p hl h hne

/-- C18: in every state reached from the empty store no upload holds more than
10^8 hashes, and `cleanOldUploads` changes nothing there, neither map nor
ledger, whatever the order of the range; the same at its call site in
`handleUpload`, after an accepted body has been stored and its name appended.
The size it compares with the cap is 0 or the length of one upload. -/
theorem C18_cleanOldUploads_removes_nothing (events : List Event) (iter : List String) :
    (∀ k, (mapGet (run Store.empty events).uploads k []).length ≤ 10 ^ 8) ∧
    cleanOldUploads (run Store.empty events) iter = run Store.empty events ∧
    (∀ (name : String) (body upload : List Nat), readUint64s body = (upload, none) →
      cleanOldUploads
        { run Store.empty events with
            uploads := mapSet (run Store.empty events).uploads name (sortHashes upload),
            uploadHistory := (run Store.empty events).uploadHistory ++ [name],
            uploadLock := true } iter
        = { run Store.empty events with
            uploads := mapSet (run Store.empty events).uploads name (sortHashes upload),
            uploadHistory := (run Store.empty events).uploadHistory ++ [name],
            uploadLock := true }) ∧
    (∀ uploads : List (String × List Nat), rangeSize uploads iter = 0 ∨
      ∃ k ∈ iter, rangeSize uploads iter = ((mapGet uploads k []).length : Int)) := by
  have hb := run_bounded events Store.empty empty_bounded
  refine ⟨?_, ?_, ?_, ?_⟩
  · intro k
    have := hb k
    simpa [maxHashes] using this
  · exact cleanOldUploads_noop _ iter hb
  · intro name body upload hr
    apply cleanOldUploads_noop
    exact mapSet_bounded _ name _ _ hb (by
      rw [length_sortHashes]; exact readUint64s_length_le body upload none hr)
  · intro uploads
    exact rangeSize_single uploads iter

/-- C19: `findHash` reports no false positive, sorted haystack or not: a
needle it finds occurs in the haystack, and every 1 bit of a `findHashes` mask
sits at the position of a needle that is in the haystack.  On the unsorted
haystack `[5, 1, 3]` it finds 3 and misses 5. -/
theorem C19_no_false_positive (needles haystack : List Nat) :
    (∀ needle, findHash needle haystack = true → needle ∈ haystack) ∧
    (∀ i, ((findHashes needles haystack).getD (i / 8) 0).testBit (7 - i % 8) = true →
      ∃ hi : i < needles.length, needles[i] ∈ haystack) ∧
    findHash 3 [5, 1, 3] = true ∧ findHash 5 [5, 1, 3] = false := by
  refine ⟨fun needle h => findHash_sound needle haystack h, ?_, by decide, by decide⟩
  intro i hbit
  have hb := findHashes_bit needles haystack i
  unfold maskBit at hb
  rw [hbit] at hb
  by_cases hi : i < needles.length
  · rw [hit_of_lt needles haystack i hi] at hb
    exact ⟨hi, findHash_sound _ _ hb.symm⟩
  · rw [hit_of_ge needles haystack i (by omega)] at hb
    exact absurd hb (by simp)

/-- C17: in every state reached from the empty store, the hashes stored under
a name are sorted ascending and are a permutation of the sequence decoded from
the body of a deposit of the run under that name: duplicates kept, nothing
added or dropped. -/
theorem C17_stored_sorted_perm (events : List Event) (name : String) (h : List Nat)
    (hl : (run Store.empty events).uploads.lookup name = some h) :
    h.Sorted (· ≤ ·) ∧
    ∃ r iter upload, Event.upload r iter ∈ events ∧ r.method = "PUT" ∧
      r.nameList = [name] ∧ readUint64s r.body = (upload, none) ∧ h.Perm upload := by
  rcases run_stored name h events Store.empty hl with h0 | ⟨r, iter, upload, hmem, hm, hn, hr, hs⟩
  · exact absurd h0 (by simp [Store.empty])
  · rw [hs]
    exact ⟨sortHashes_sorted upload, r, iter, upload, hmem, hm, hn, hr, sortHashes_perm upload⟩

/-- C17 at the run that deposits `5, 1, 3, 1` under `a`. -/
theorem C17_stored_sorted_perm_witness :
    [1, 1, 3, 5].Sorted (· ≤ ·) ∧
    ∃ r iter upload,
      Event.upload r iter ∈ [Event.upload ⟨"PUT", ["a"], encodeHashes [5, 1, 3, 1]⟩ []] ∧
      r.method = "PUT" ∧ r.nameList = ["a"] ∧ readUint64s r.body = (upload, none) ∧
      [1, 1, 3, 5].Perm upload :=
  C17_stored_sorted_perm [Event.upload ⟨"PUT", ["a"], encodeHashes [5, 1, 3, 1]⟩ []] "a"
    [1, 1, 3, 5] (by decide)

/-- C20: reading the bytes of `findHashes needles haystack` in order and in
each byte the bits 7 down to 0 against `n` rows, as the loop of `matchMain`
does, writes row `i` exactly when bit `i` of the mask (byte `i / 8`, bit
`7 - i % 8`) is set, in the order of the rows; all `n` rows are consumed and
none is left; the padding bits, at positions `n` and beyond, are 0 and meet no
row.  With the numbers `0 .. n - 1` as rows, the numbers written are those
`i < n` whose bit is set. -/
theorem C20_unpack_inverts_pack {α : Type} (needles haystack : List Nat) (rows : List α)
    (hrows : rows.length = needles.length) :
    unpackMasks (findHashes needles haystack) rows []
      = ([], selectRows
          (fun i => ((findHashes needles haystack).getD (i / 8) 0).testBit (7 - i % 8)) 0 rows) ∧
    rows.length - (unpackMasks (findHashes needles haystack) rows []).1.length
      = needles.length ∧
    (∀ t, needles.length ≤ t →
      ((findHashes needles haystack).getD (t / 8) 0).testBit (7 - t % 8) = false) ∧
    (∀ i, i ∈ (unpackMasks (findHashes needles haystack)
        (List.range' 0 needles.length) []).2 ↔
      i < needles.length ∧
        ((findHashes needles haystack).getD (i / 8) 0).testBit (7 - i % 8) = true) := by
  have hlen := findHashes_length needles haystack
  have main : ∀ (β : Type) (rs : List β), rs.length = needles.length →
      unpackMasks (findHashes needles haystack) rs []
        = ([], selectRows (fun i => maskBit (findHashes needles haystack) i) 0 rs) := by
    intro β rs hrs
    rw [unpackMasks_spec (findHashes needles haystack) [] rs []]
    rw [List.drop_eq_nil_of_le (by omega), List.take_of_length_le (by omega)]
    simp
  refine ⟨main α rows hrows, ?_, ?_, ?_⟩
  · rw [main α rows hrows]
    simp only [List.length_nil]
    omega
  · intro t ht
    have := findHashes_bit needles haystack t
    rw [hit_of_ge needles haystack t ht] at this
    exact this
  · intro i
    rw [main Nat (List.range' 0 needles.length) (by simp)]
    simp only
    rw [selectRows_range', List.mem_filter, List.mem_range'_1]
    simp only [maskBit]
    constructor
    · intro h; exact ⟨by omega, h.2⟩
    · intro h; exact ⟨⟨Nat.zero_le _, by omega⟩, h.2⟩

/-- C20 at needles `[1, 2, 3]`, haystack `[1, 3, 5]` and three rows. -/
theorem C20_unpack_inverts_pack_witness :
    unpackMasks (findHashes [1, 2, 3] [1, 3, 5]) ["r0", "r1", "r2"] []
      = ([], selectRows
          (fun i => ((findHashes [1, 2, 3] [1, 3, 5]).getD (i / 8) 0).testBit (7 - i % 8)) 0
          ["r0", "r1", "r2"]) ∧
    ["r0", "r1", "r2"].length
        - (unpackMasks (findHashes [1, 2, 3] [1, 3, 5]) ["r0", "r1", "r2"] []).1.length
      = [1, 2, 3].length ∧
    (∀ t, [1, 2, 3].length ≤ t →
      ((findHashes [1, 2, 3] [1, 3, 5]).getD (t / 8) 0).testBit (7 - t % 8) = false) ∧
    (∀ i, i ∈ (unpackMasks (findHashes [1, 2, 3] [1, 3, 5])
        (List.range' 0 [1, 2, 3].length) []).2 ↔
      i < [1, 2, 3].length ∧
        ((findHashes [1, 2, 3] [1, 3, 5]).getD (i / 8) 0).testBit (7 - i % 8) = true) :=
  C20_unpack_inverts_pack [1, 2, 3] [1, 3, 5] ["r0", "r1", "r2"] (by decide)

/-- C15 fails on the code: two deposits under `a`, one with the hashes `1, 2`
and one with `3`, interleaved so that both pass the name check before either
stores.  Both are answered 204; the second store replaces the hashes of the
first, and the ledger holds `a` twice.  The name check and the insertion are
two critical sections of `handleUpload` with `uploadLock` released between
them. -/
theorem C15_interleaved_deposits_overwrite :
    advanceUpload Store.empty ⟨"PUT", ["a"], encodeHashes [1, 2]⟩ [] Phase.start
      = some (Phase.checked, Store.empty) ∧
    advanceUpload Store.empty ⟨"PUT", ["a"], encodeHashes [3]⟩ [] Phase.start
      = some (Phase.checked, Store.empty) ∧
    advanceUpload Store.empty ⟨"PUT", ["a"], encodeHashes [1, 2]⟩ [] Phase.checked
      = some (Phase.done Response.noContent, ⟨[("a", [1, 2])], [], ["a"], false, ["a"]⟩) ∧
    advanceUpload ⟨[("a", [1, 2])], [], ["a"], false, ["a"]⟩
        ⟨"PUT", ["a"], encodeHashes [3]⟩ [] Phase.checked
      = some (Phase.done Response.noContent,
          ⟨[("a", [3])], [], ["a", "a"], false, ["a", "a"]⟩) ∧
    (∀ (s : Store) (r : Request) (iter : List String),
      serveAlone s r iter = handleUpload s r iter) := by
  refine ⟨by decide, by decide, by decide, by decide, serveAlone_eq⟩

end ListMatch
